import Mathlib

/-!
A shallow embedding of the `graphql-query-match` library (src/index.ts).

The library decides whether a "matcher" (pattern) query's selection tree is
reachable inside a target query's selection tree.  The target query is either
a full GraphQL document or an Apollo-style bundle of root field nodes plus a
fragment map.  The resolver in `doesQueryMatch`, the fragment walker
`getFragmentFieldSelections` and the reachability evaluator
`hasOnlyDeepEmptyArrays` are embedded directly from the source.  The
`graphql-anywhere` driver that applies the resolver over the matcher document
is an external dependency whose code is not in the repository; it is modelled
from the spec's Matcher contract (§4.3).

JavaScript exceptions become `Except Err`; the unbounded fragment recursion
(which the source performs directly and which diverges on cyclic fragment
maps) is made total with an explicit fuel parameter, `Err.outOfFuel` marking
fuel exhaustion.  Machine-irrelevant aspects (aliases, argument lists,
directives) that the source never reads are omitted from the node types.
-/

/-- A selection inside a selection set: a field node (name plus optional child
selection set), a fragment spread (by name), or any other selection kind
(e.g. an inline fragment), which the source never inspects. -/
inductive Selection where
  | field (name : String) (selectionSet : Option (List Selection))
  | fragmentSpread (name : String)
  | other

/-- A field node, as produced by filtering: its name and optional child
selection set. -/
abbrev FieldNode := String × Option (List Selection)

/-- A fragment map: fragment name to the fragment's selection set.
JavaScript object semantics: lookup by key, later insertions overwrite. -/
abbrev FragmentMap := List (String × List Selection)

/-- A definition in a GraphQL document: an operation definition or a fragment
definition (the two kinds `doesQueryMatch` distinguishes). -/
inductive Definition where
  | operation (selections : List Selection)
  | fragment (name : String) (selections : List Selection)

/-- The `queryToCheck` argument of `doesQueryMatch`: either a full document
(`kind` present) or an Apollo info bundle with optional `fieldNodes` and a
fragment map. -/
inductive QueryInput where
  | document (definitions : List Definition)
  | apolloInfo (fieldNodes : Option (List FieldNode)) (fragments : FragmentMap)

/-- Errors: a thrown JavaScript `Error(message)`, or exhaustion of the fuel
that makes the source's unbounded fragment recursion total. -/
inductive Err where
  | thrown (message : String)
  | outOfFuel
deriving DecidableEq, Repr

/-- The `rootValue` the resolver receives: an operation definition or a field
node. -/
inductive RootValue where
  | opDef (selections : List Selection)
  | field (node : FieldNode)

mutual
/-- Embeds `getFragmentFieldSelections` (src/index.ts:131-158): looks the
fragment up in the map, throws `Referenced non-existent fragment <name>` when
absent, and otherwise walks the fragment's selection set.  `fuel` bounds the
recursion depth through nested fragment spreads. -/
def getFragmentFieldSelections : Nat → String → FragmentMap → String →
    Except Err (List FieldNode)
  | 0, _, _, _ => .error .outOfFuel
  | fuel + 1, fragmentName, fragments, fieldName =>
    match fragments.lookup fragmentName with
    | some sels => fragSelections fuel sels fragments fieldName
    | none =>
      .error (.thrown ("Referenced non-existent fragment " ++ fragmentName))
termination_by fuel _ _ _ => (fuel, 0)

/-- The `forEach` loop body of `getFragmentFieldSelections`: a field whose
name equals `fieldName` is kept, a fragment spread is resolved recursively,
anything else contributes nothing. -/
def fragSelections : Nat → List Selection → FragmentMap → String →
    Except Err (List FieldNode)
  | _, [], _, _ => .ok []
  | fuel, .field n c :: rest, fragments, fieldName =>
    match fragSelections fuel rest fragments fieldName with
    | .error e => .error e
    | .ok there => .ok ((if n = fieldName then [(n, c)] else []) ++ there)
  | fuel, .fragmentSpread n :: rest, fragments, fieldName =>
    match getFragmentFieldSelections fuel n fragments fieldName with
    | .error e => .error e
    | .ok here =>
      match fragSelections fuel rest fragments fieldName with
      | .error e => .error e
      | .ok there => .ok (here ++ there)
  | fuel, .other :: rest, fragments, fieldName =>
    fragSelections fuel rest fragments fieldName
termination_by fuel sels _ _ => (fuel, sizeOf sels)
end

/-- The `isRightSelectionNode` filter (src/index.ts:68-71): the field nodes
among `sels` whose name equals `fieldName`, in order. -/
def directSelections (fieldName : String) : List Selection → List FieldNode
  | [] => []
  | .field n c :: rest =>
    if n = fieldName then (n, c) :: directSelections fieldName rest
    else directSelections fieldName rest
  | .fragmentSpread _ :: rest => directSelections fieldName rest
  | .other :: rest => directSelections fieldName rest

/-- The `isFragmentSpreadNode` filter (src/index.ts:183-185): the names of the
fragment spreads among `sels`, in order. -/
def spreadNames : List Selection → List String
  | [] => []
  | .fragmentSpread n :: rest => n :: spreadNames rest
  | .field _ _ :: rest => spreadNames rest
  | .other :: rest => spreadNames rest

/-- The `for (const spread of fragmentSpreads)` loop (src/index.ts:80-88):
resolve each spread for `fieldName` and concatenate the results in order. -/
def fragmentCandidates (fuel : Nat) (fragments : FragmentMap)
    (fieldName : String) : List String → Except Err (List FieldNode)
  | [] => .ok []
  | n :: rest =>
    match getFragmentFieldSelections fuel n fragments fieldName with
    | .error e => .error e
    | .ok here =>
      match fragmentCandidates fuel fragments fieldName rest with
      | .error e => .error e
      | .ok there => .ok (here ++ there)

/-- Candidate collection of the resolver: direct same-name fields of `sels`
first, then the fragment-resolved fields of every spread in `sels`. -/
def collectCandidates (fuel : Nat) (fragments : FragmentMap)
    (fieldName : String) (sels : List Selection) :
    Except Err (List FieldNode) :=
  match fragmentCandidates fuel fragments fieldName (spreadNames sels) with
  | .error e => .error e
  | .ok frag => .ok (directSelections fieldName sels ++ frag)

/-- What the resolver returns for one field: `true` (leaf satisfied) or the
array of candidate field nodes. -/
inductive ResolveResult where
  | satisfied
  | candidates (fields : List FieldNode)

/-- Embeds the resolver closure passed to `graphql` (src/index.ts:59-120).
For an operation definition or a field node with a selection set it collects
candidates and returns `true` when the matcher field is a leaf and at least
one candidate exists, otherwise the candidate array; a field node without a
selection set yields the empty array. -/
def resolveField (fuel : Nat) (fragments : FragmentMap) (fieldName : String)
    (isLeaf : Bool) (root : RootValue) : Except Err ResolveResult :=
  match root with
  | .opDef sels =>
    match collectCandidates fuel fragments fieldName sels with
    | .error e => .error e
    | .ok cands =>
      .ok (if isLeaf && !cands.isEmpty then .satisfied else .candidates cands)
  | .field (_, some sels) =>
    match collectCandidates fuel fragments fieldName sels with
    | .error e => .error e
    | .ok cands =>
      .ok (if isLeaf && !cands.isEmpty then .satisfied else .candidates cands)
  | .field (_, none) => .ok (.candidates [])

/-- A matcher (pattern) field: a name and an optional child pattern selection
set; `none` makes it a leaf. -/
inductive Pattern where
  | mk (name : String) (children : Option (List Pattern))

/-- The value stored under one key of an `ExecutionResult`: the literal
`true` marker (the matcher field is a satisfied leaf) or the array of child
execution results, one per candidate branch. -/
inductive RVal where
  | leafSat
  | branches (ts : List (List (String × RVal)))

/-- The `ExecutionResult` of the source: matcher field names mapped to
`true` or arrays of child results. -/
abbrev ExecutionResult := List (String × RVal)

mutual
/-- Modelled from the spec: the `graphql-anywhere` driver that runs the
resolver over the matcher document is an external dependency, embedded here
following §4.3 of the spec.  For each matcher field the resolver is invoked
against the current root value; a `true` result records the leaf-satisfied
marker and a candidate array is either stored as-is (leaf matcher field) or
expanded by matching the matcher field's children against each candidate. -/
def execPattern (fuel : Nat) (fragments : FragmentMap) :
    List Pattern → RootValue → Except Err ExecutionResult
  | [], _ => .ok []
  | p :: rest, root =>
    match execField fuel fragments p root with
    | .error e => .error e
    | .ok e =>
      match execPattern fuel fragments rest root with
      | .error e => .error e
      | .ok es => .ok (e :: es)
termination_by ps _ => (sizeOf ps, 0)

/-- Modelled from the spec (§4.3): one matcher field's entry in the execution
result. -/
def execField (fuel : Nat) (fragments : FragmentMap) :
    Pattern → RootValue → Except Err (String × RVal)
  | .mk name children, root =>
    match resolveField fuel fragments name children.isNone root with
    | .error e => .error e
    | .ok .satisfied => .ok (name, .leafSat)
    | .ok (.candidates cands) =>
      match children with
      | none => .ok (name, .branches [])
      | some cs =>
        match execBranches fuel fragments cs cands with
        | .error e => .error e
        | .ok rs => .ok (name, .branches rs)
termination_by p _ => (sizeOf p, 0)

/-- Modelled from the spec (§4.3 step 3): match the pattern children against
each candidate branch, producing one child result per candidate. -/
def execBranches (fuel : Nat) (fragments : FragmentMap) :
    List Pattern → List FieldNode → Except Err (List ExecutionResult)
  | _, [] => .ok []
  | cs, c :: rest =>
    match execPattern fuel fragments cs (.field c) with
    | .error e => .error e
    | .ok r =>
      match execBranches fuel fragments cs rest with
      | .error e => .error e
      | .ok rs => .ok (r :: rs)
termination_by cs cands => (sizeOf cs, sizeOf cands)
end

mutual
/-- Embeds `hasOnlyDeepEmptyArrays` (src/index.ts:164-175): true when some
key's value is an array all of whose elements are themselves dead (in
particular when the array is empty); the `true` marker never contributes. -/
def hasOnlyDeepEmptyArrays : ExecutionResult → Bool
  | [] => false
  | (_, v) :: rest => deadEntry v || hasOnlyDeepEmptyArrays rest
termination_by r => sizeOf r

/-- One key's contribution inside `hasOnlyDeepEmptyArrays`: the
`resultForKey.filter(hasOnlyDeepEmptyArrays).length === resultForKey.length`
test; a boolean value never contributes. -/
def deadEntry : RVal → Bool
  | .leafSat => false
  | .branches ts => (deadOnes ts).length = ts.length
termination_by v => sizeOf v

/-- The `filter(hasOnlyDeepEmptyArrays)` of the source. -/
def deadOnes : List ExecutionResult → List ExecutionResult
  | [] => []
  | t :: ts =>
    if hasOnlyDeepEmptyArrays t then t :: deadOnes ts else deadOnes ts
termination_by ts => sizeOf ts
end

/-- The `definitions.find(isOperationDefinitionNode)` of `doesQueryMatch`
(src/index.ts:41-43): the first operation definition's selection set. -/
def findFirstOp : List Definition → Option (List Selection)
  | [] => none
  | .operation sels :: _ => some sels
  | .fragment _ _ :: rest => findFirstOp rest

/-- JavaScript object assignment `fragmentDefs[name] = def`: replace the
value at an existing key, otherwise append. -/
def insertFrag : FragmentMap → String → List Selection → FragmentMap
  | [], n, s => [(n, s)]
  | (m, t) :: rest, n, s =>
    if m = n then (m, s) :: rest else (m, t) :: insertFrag rest n s

/-- The `forEach` that collects fragment definitions (src/index.ts:49-56). -/
def buildFrags : List Definition → FragmentMap → FragmentMap
  | [], acc => acc
  | .operation _ :: rest, acc => buildFrags rest acc
  | .fragment n sels :: rest, acc => buildFrags rest (insertFrag acc n sels)

/-- The `.map(resolve)` over the bundle's root field nodes
(src/index.ts:123-124): every root node is resolved (so any error is
raised) before `.some` is applied. -/
def execRoots (fuel : Nat) (fragments : FragmentMap) (matcher : List Pattern) :
    List FieldNode → Except Err (List ExecutionResult)
  | [] => .ok []
  | n :: rest =>
    match execPattern fuel fragments matcher (.field n) with
    | .error e => .error e
    | .ok r =>
      match execRoots fuel fragments matcher rest with
      | .error e => .error e
      | .ok rs => .ok (r :: rs)

/-- Embeds `doesQueryMatch` (src/index.ts:28-129).  An Apollo bundle without
`fieldNodes` or a document without an operation definition throws
`No query found!`; otherwise the matcher is resolved against each root node
(bundle form) or the single operation definition (document form) and the
result is true when some resolution is not deeply empty. -/
def doesQueryMatch (fuel : Nat) (matcher : List Pattern)
    (queryToCheck : QueryInput) : Except Err Bool :=
  match queryToCheck with
  | .apolloInfo none _ => .error (.thrown "No query found!")
  | .apolloInfo (some nodes) fragments =>
    match execRoots fuel fragments matcher nodes with
    | .error e => .error e
    | .ok results => .ok (results.any (fun r => !hasOnlyDeepEmptyArrays r))
  | .document defs =>
    match findFirstOp defs with
    | none => .error (.thrown "No query found!")
    | some sels =>
      match execPattern fuel (buildFrags defs []) matcher (.opDef sels) with
      | .error e => .error e
      | .ok r => .ok (!hasOnlyDeepEmptyArrays r)

/-! ## Basic facts about the reachability evaluator -/

/-- `deadOnes` is `List.filter hasOnlyDeepEmptyArrays`. -/
theorem deadOnes_eq_filter (ts : List ExecutionResult) :
    deadOnes ts = ts.filter (fun t => hasOnlyDeepEmptyArrays t) := by
  induction ts with
  | nil => simp [deadOnes]
  | cons t ts ih =>
    by_cases h : hasOnlyDeepEmptyArrays t <;> simp [deadOnes, h, ih]

/-- The filtered length equals the full length exactly when every element is
dead. -/
theorem deadOnes_length_iff (ts : List ExecutionResult) :
    (deadOnes ts).length = ts.length ↔
      ∀ t ∈ ts, hasOnlyDeepEmptyArrays t = true := by
  rw [deadOnes_eq_filter]
  constructor
  · intro h t ht
    by_contra hf
    have hlt : (ts.filter (fun t => hasOnlyDeepEmptyArrays t)).length < ts.length := by
      refine List.length_filter_lt_length_iff_exists.mpr ?_
      exact ⟨t, ht, by simpa using hf⟩
    omega
  · intro h
    have : ts.filter (fun t => hasOnlyDeepEmptyArrays t) = ts :=
      List.filter_eq_self.mpr (by intro a ha; simpa using h a ha)
    rw [this]

/-- `hasOnlyDeepEmptyArrays` is an existential over the entries. -/
theorem hasOnlyDeepEmptyArrays_iff_exists (r : ExecutionResult) :
    hasOnlyDeepEmptyArrays r = true ↔ ∃ kv ∈ r, deadEntry kv.2 = true := by
  induction r with
  | nil => simp [hasOnlyDeepEmptyArrays]
  | cons kv rest ih =>
    obtain ⟨k, v⟩ := kv
    simp [hasOnlyDeepEmptyArrays, ih]

/-- `deadEntry` holds exactly for a branch list whose dead elements exhaust
it. -/
theorem deadEntry_iff (v : RVal) :
    deadEntry v = true ↔
      ∃ ts, v = RVal.branches ts ∧
        ts.countP (fun t => hasOnlyDeepEmptyArrays t) = ts.length := by
  cases v with
  | leafSat => simp [deadEntry]
  | branches ts =>
    simp only [deadEntry, List.countP_eq_length_filter, ← deadOnes_eq_filter]
    constructor
    · intro h; exact ⟨ts, rfl, by simpa using h⟩
    · rintro ⟨ts', h, hlen⟩
      cases h
      simpa using hlen

/-! ## C10: empty root-node bundle -/

/-- C10: a bundle whose root field node sequence is present but empty makes
`doesQueryMatch` return `false` without raising any error; the
missing-root-nodes error only fires when the sequence is absent. -/
theorem emptyRootBundle_returns_false :
    ∀ (fuel : Nat) (matcher : List Pattern) (fragments : FragmentMap),
      doesQueryMatch fuel matcher (.apolloInfo (some []) fragments) =
        .ok false := by
  intro fuel matcher fragments
  simp [doesQueryMatch, execRoots]

/-! ## C5: the two "no query" failure modes -/

/-- C5 counterexample: a document with no operation definition and a bundle
with no root field node sequence fail with the *same* error value
`Error("No query found!")`, so the two failure modes are not distinguishable
and neither message is "no operation found" / "no root nodes found". -/
theorem noQueryFound_errors_coincide :
    doesQueryMatch 1 [Pattern.mk "a" none] (.document []) =
        .error (.thrown "No query found!") ∧
      doesQueryMatch 1 [Pattern.mk "a" none] (.apolloInfo none []) =
        .error (.thrown "No query found!") ∧
      doesQueryMatch 1 [Pattern.mk "a" none] (.document []) =
        doesQueryMatch 1 [Pattern.mk "a" none] (.apolloInfo none []) := by
  refine ⟨?_, ?_, ?_⟩ <;> simp [doesQueryMatch, findFirstOp]

/-- C5 amended: a document without an operation definition and a bundle whose
root field node sequence is absent both fail, with the identical error
`Error("No query found!")`. -/
theorem noQueryFound_both_modes :
    ∀ (fuel : Nat) (matcher : List Pattern) (defs : List Definition)
      (fragments : FragmentMap), findFirstOp defs = none →
      doesQueryMatch fuel matcher (.document defs) =
          .error (.thrown "No query found!") ∧
        doesQueryMatch fuel matcher (.apolloInfo none fragments) =
          .error (.thrown "No query found!") := by
  intro fuel matcher defs fragments h
  constructor
  · simp [doesQueryMatch, h]
  · simp [doesQueryMatch]

/-- Witness for the amended C5 at a concrete input. -/
theorem noQueryFound_both_modes_witness :
    doesQueryMatch 2 [Pattern.mk "a" none]
        (.document [.fragment "F" []]) =
      .error (.thrown "No query found!") :=
  (noQueryFound_both_modes 2 [Pattern.mk "a" none] [.fragment "F" []] []
    (by simp [findFirstOp])).1

/-! ## C9: selections of other kinds are silently skipped -/

theorem directSelections_append_other (fieldName : String)
    (xs ys : List Selection) :
    directSelections fieldName (xs ++ Selection.other :: ys) =
      directSelections fieldName (xs ++ ys) := by
  induction xs with
  | nil => simp [directSelections]
  | cons s xs ih => cases s <;> simp [directSelections, ih]

theorem spreadNames_append_other (xs ys : List Selection) :
    spreadNames (xs ++ Selection.other :: ys) = spreadNames (xs ++ ys) := by
  induction xs with
  | nil => simp [spreadNames]
  | cons s xs ih => cases s <;> simp [spreadNames, ih]

theorem fragSelections_append_other (fuel : Nat) (fragments : FragmentMap)
    (fieldName : String) (xs ys : List Selection) :
    fragSelections fuel (xs ++ Selection.other :: ys) fragments fieldName =
      fragSelections fuel (xs ++ ys) fragments fieldName := by
  induction xs with
  | nil => simp [fragSelections]
  | cons s xs ih => cases s <;> simp [fragSelections, ih]

/-- C9: a selection that is neither a field node nor a fragment spread
contributes nothing anywhere candidates are collected — removing it changes
neither the direct-field filter, nor the spread filter, nor the resolver's
candidate collection, nor the fragment walker — and it raises no error. -/
theorem otherSelections_skipped :
    ∀ (fuel : Nat) (fragments : FragmentMap) (fieldName : String)
      (xs ys : List Selection),
      directSelections fieldName (xs ++ Selection.other :: ys) =
          directSelections fieldName (xs ++ ys) ∧
        spreadNames (xs ++ Selection.other :: ys) = spreadNames (xs ++ ys) ∧
        collectCandidates fuel fragments fieldName
            (xs ++ Selection.other :: ys) =
          collectCandidates fuel fragments fieldName (xs ++ ys) ∧
        fragSelections fuel (xs ++ Selection.other :: ys) fragments fieldName =
          fragSelections fuel (xs ++ ys) fragments fieldName := by
  intro fuel fragments fieldName xs ys
  refine ⟨directSelections_append_other fieldName xs ys,
    spreadNames_append_other xs ys, ?_,
    fragSelections_append_other fuel fragments fieldName xs ys⟩
  simp [collectCandidates, directSelections_append_other,
    spreadNames_append_other]

/-! ## C1: the reachability evaluator and the overall answer -/

/-- C1: `hasOnlyDeepEmptyArrays` is true exactly when some field-name entry
holds a sequence of child result trees in which the dead children exhaust the
sequence (an empty sequence is always dead and the leaf-satisfied marker is
never dead, both being consequences of this characterization); and for a
document target the overall answer of `doesQueryMatch` is the negation of
`hasOnlyDeepEmptyArrays` on the root result tree. -/
theorem isDead_characterization_and_match_negation :
    (∀ r : ExecutionResult, hasOnlyDeepEmptyArrays r = true ↔
      ∃ kv ∈ r, ∃ ts, kv.2 = RVal.branches ts ∧
        ts.countP (fun t => hasOnlyDeepEmptyArrays t) = ts.length) ∧
    (∀ (fuel : Nat) (matcher : List Pattern) (defs : List Definition)
      (sels : List Selection) (r : ExecutionResult),
      findFirstOp defs = some sels →
      execPattern fuel (buildFrags defs []) matcher (.opDef sels) = .ok r →
      doesQueryMatch fuel matcher (.document defs) =
        .ok (!hasOnlyDeepEmptyArrays r)) := by
  constructor
  · intro r
    rw [hasOnlyDeepEmptyArrays_iff_exists]
    constructor
    · rintro ⟨kv, hkv, hdead⟩
      exact ⟨kv, hkv, (deadEntry_iff kv.2).mp hdead⟩
    · rintro ⟨kv, hkv, hts⟩
      exact ⟨kv, hkv, (deadEntry_iff kv.2).mpr hts⟩
  · intro fuel matcher defs sels r hop hexec
    simp [doesQueryMatch, hop, hexec]

/-- Witness for C1 at a concrete input: a satisfied leaf matcher. -/
theorem isDead_characterization_witness :
    doesQueryMatch 1 [Pattern.mk "a" none]
        (.document [.operation [.field "a" none]]) = .ok true := by
  have h := isDead_characterization_and_match_negation.2 1 [Pattern.mk "a" none]
    [.operation [.field "a" none]] [.field "a" none] [("a", RVal.leafSat)]
    (by simp [findFirstOp])
    (by simp [execPattern, execField, resolveField, collectCandidates,
      spreadNames, fragmentCandidates, directSelections])
  simpa [hasOnlyDeepEmptyArrays, deadEntry] using h

/-! ## The resolver as candidate collection plus a leaf test -/

/-- The candidate collection the resolver performs for one field name against
a root value: the shared first half of both resolver branches, with a
selection-set-less field node yielding no candidates. -/
def candidatesOf (fuel : Nat) (fragments : FragmentMap) (fieldName : String) :
    RootValue → Except Err (List FieldNode)
  | .opDef sels => collectCandidates fuel fragments fieldName sels
  | .field (_, some sels) => collectCandidates fuel fragments fieldName sels
  | .field (_, none) => .ok []

/-- The resolver is candidate collection followed by the leaf test. -/
theorem resolveField_eq_candidatesOf (fuel : Nat) (fragments : FragmentMap)
    (fieldName : String) (isLeaf : Bool) (root : RootValue) :
    resolveField fuel fragments fieldName isLeaf root =
      (candidatesOf fuel fragments fieldName root).map (fun cands =>
        if isLeaf && !cands.isEmpty then .satisfied else .candidates cands) := by
  cases root with
  | opDef sels =>
    cases h : collectCandidates fuel fragments fieldName sels <;>
      simp [resolveField, candidatesOf, h, Except.map]
  | field node =>
    obtain ⟨n, c⟩ := node
    cases c with
    | none => simp [resolveField, candidatesOf, Except.map]
    | some sels =>
      cases h : collectCandidates fuel fragments fieldName sels <;>
        simp [resolveField, candidatesOf, h, Except.map]

/-! ## C3: leaf pattern fields need only an existing candidate -/

/-- C3: for a leaf matcher field the resolver records the leaf-satisfied
marker exactly when at least one candidate exists (its depth is never
inspected), and records the empty branch list — a dead entry — when there is
none. -/
theorem leafField_existence_suffices :
    ∀ (fuel : Nat) (fragments : FragmentMap) (name : String)
      (root : RootValue) (cands : List FieldNode),
      candidatesOf fuel fragments name root = .ok cands →
      execField fuel fragments (.mk name none) root =
          .ok (name, if cands.isEmpty then RVal.branches [] else RVal.leafSat) ∧
        deadEntry (if cands.isEmpty then RVal.branches [] else RVal.leafSat) =
          cands.isEmpty := by
  intro fuel fragments name root cands h
  cases cands with
  | nil =>
    constructor
    · simp [execField, resolveField_eq_candidatesOf, h, Except.map]
    · simp [deadEntry, deadOnes]
  | cons c cs =>
    constructor
    · simp [execField, resolveField_eq_candidatesOf, h, Except.map]
    · simp [deadEntry]

/-- Witness for C3: one candidate (itself of any depth) satisfies a leaf
matcher field. -/
theorem leafField_existence_suffices_witness :
    execField 1 [] (.mk "a" none)
        (.opDef [.field "a" (some [.field "b" none])]) =
      .ok ("a", RVal.leafSat) := by
  have h := leafField_existence_suffices 1 [] "a"
    (.opDef [.field "a" (some [.field "b" none])])
    [("a", some [Selection.field "b" none])]
    (by simp [candidatesOf, collectCandidates, spreadNames,
      fragmentCandidates, directSelections])
  simpa using h.1

/-! ## C2: non-leaf pattern fields match inside a single candidate branch -/

/-- A successful `execBranches` pairs each candidate with its child result. -/
theorem execBranches_forall2 (fuel : Nat) (fragments : FragmentMap)
    (cs : List Pattern) :
    ∀ (cands : List FieldNode) (rs : List ExecutionResult),
      execBranches fuel fragments cs cands = .ok rs →
      List.Forall₂
        (fun c r => execPattern fuel fragments cs (.field c) = .ok r)
        cands rs := by
  intro cands
  induction cands with
  | nil =>
    intro rs h
    simp only [execBranches] at h
    cases h
    exact List.Forall₂.nil
  | cons c rest ih =>
    intro rs h
    simp only [execBranches] at h
    cases h1 : execPattern fuel fragments cs (.field c) with
    | error e => rw [h1] at h; cases h
    | ok r =>
      rw [h1] at h
      cases h2 : execBranches fuel fragments cs rest with
      | error e => rw [h2] at h; cases h
      | ok rs' =>
        rw [h2] at h
        cases h
        exact List.Forall₂.cons h1 (ih rs' h2)

/-- Transfer an existential over results to an existential over candidates
along the graph of a partial function. -/
theorem forall2_exists_transfer {α β : Type} {f : α → Except Err β}
    {p : β → Prop} :
    ∀ {cands : List α} {rs : List β},
      List.Forall₂ (fun c r => f c = .ok r) cands rs →
      ((∃ r ∈ rs, p r) ↔ ∃ c ∈ cands, ∃ r, f c = .ok r ∧ p r) := by
  intro cands rs h
  induction h with
  | nil => simp
  | cons hcr htail ih =>
    rename_i c r cands' rs'
    constructor
    · rintro ⟨r', hr', hp⟩
      rcases List.mem_cons.mp hr' with h1 | h1
      · exact ⟨c, List.mem_cons_self _ _, r, hcr, h1 ▸ hp⟩
      · obtain ⟨c', hc', r'', hok, hp'⟩ := ih.mp ⟨r', h1, hp⟩
        exact ⟨c', List.mem_cons_of_mem _ hc', r'', hok, hp'⟩
    · rintro ⟨c', hc', r', hok, hp⟩
      rcases List.mem_cons.mp hc' with h1 | h1
      · subst h1
        rw [hcr] at hok
        cases hok
        exact ⟨r, List.mem_cons_self _ _, hp⟩
      · obtain ⟨r'', hr'', hp'⟩ := ih.mpr ⟨c', h1, r', hok, hp⟩
        exact ⟨r'', List.mem_cons_of_mem _ hr'', hp'⟩

/-- A branch-list entry is live exactly when some branch result is live. -/
theorem deadEntry_branches_false_iff (rs : List ExecutionResult) :
    deadEntry (RVal.branches rs) = false ↔
      ∃ r ∈ rs, hasOnlyDeepEmptyArrays r = false := by
  have h := deadOnes_length_iff rs
  constructor
  · intro hfalse
    by_contra hc
    push_neg at hc
    have : ∀ t ∈ rs, hasOnlyDeepEmptyArrays t = true := by
      intro t ht
      have := hc t ht
      simpa [Bool.not_eq_false] using this
    have : deadEntry (RVal.branches rs) = true := by
      simp [deadEntry, h.mpr this]
    rw [this] at hfalse
    cases hfalse
  · rintro ⟨r, hr, hfalse⟩
    by_contra hc
    have htrue : deadEntry (RVal.branches rs) = true := by
      cases hdead : deadEntry (RVal.branches rs) with
      | false => exact absurd hdead hc
      | true => rfl
    have hall : ∀ t ∈ rs, hasOnlyDeepEmptyArrays t = true := by
      have : (deadOnes rs).length = rs.length := by
        simpa [deadEntry] using htrue
      exact h.mp this
    rw [hall r hr] at hfalse
    cases hfalse

/-- C2: a matcher field with children, resolved against any root value,
records one child result per candidate branch; the entry is live exactly when
at least one *single* candidate's subtree satisfies all the children
simultaneously — children are never satisfied across different branches. -/
theorem nonLeafField_single_branch_or :
    ∀ (fuel : Nat) (fragments : FragmentMap) (name : String)
      (cs : List Pattern) (root : RootValue) (cands : List FieldNode)
      (rs : List ExecutionResult),
      candidatesOf fuel fragments name root = .ok cands →
      execBranches fuel fragments cs cands = .ok rs →
      execField fuel fragments (.mk name (some cs)) root =
          .ok (name, RVal.branches rs) ∧
        (deadEntry (RVal.branches rs) = false ↔
          ∃ c ∈ cands, ∃ r,
            execPattern fuel fragments cs (.field c) = .ok r ∧
              hasOnlyDeepEmptyArrays r = false) := by
  intro fuel fragments name cs root cands rs hcands hbranches
  constructor
  · simp [execField, resolveField_eq_candidatesOf, hcands, Except.map,
      hbranches]
  · rw [deadEntry_branches_false_iff]
    exact forall2_exists_transfer
      (execBranches_forall2 fuel fragments cs cands rs hbranches)

/-- Witness for C2: of two aliased `a` branches only the second contains both
`b` and `c`; the field is live through that single branch. -/
theorem nonLeafField_single_branch_or_witness :
    execField 1 [] (.mk "a" (some [.mk "b" none, .mk "c" none]))
        (.opDef [.field "a" (some [.field "b" none]),
                 .field "a" (some [.field "b" none, .field "c" none])]) =
      .ok ("a", RVal.branches
        [[("b", RVal.leafSat), ("c", RVal.branches [])],
         [("b", RVal.leafSat), ("c", RVal.leafSat)]]) := by
  have h := nonLeafField_single_branch_or 1 [] "a"
    [.mk "b" none, .mk "c" none]
    (.opDef [.field "a" (some [.field "b" none]),
             .field "a" (some [.field "b" none, .field "c" none])])
    [("a", some [Selection.field "b" none]),
     ("a", some [Selection.field "b" none, Selection.field "c" none])]
    [[("b", RVal.leafSat), ("c", RVal.branches [])],
     [("b", RVal.leafSat), ("c", RVal.leafSat)]]
    (by simp [candidatesOf, collectCandidates, spreadNames,
      fragmentCandidates, directSelections])
    (by simp [execBranches, execPattern, execField, resolveField,
      collectCandidates, spreadNames, fragmentCandidates, directSelections])
  exact h.1

/-! ## C8: OR across the bundle's root nodes -/

/-- A successful `execRoots` pairs each root node with its result tree. -/
theorem execRoots_forall2 (fuel : Nat) (fragments : FragmentMap)
    (matcher : List Pattern) :
    ∀ (nodes : List FieldNode) (rs : List ExecutionResult),
      execRoots fuel fragments matcher nodes = .ok rs →
      List.Forall₂
        (fun n r => execPattern fuel fragments matcher (.field n) = .ok r)
        nodes rs := by
  intro nodes
  induction nodes with
  | nil =>
    intro rs h
    simp only [execRoots] at h
    cases h
    exact List.Forall₂.nil
  | cons n rest ih =>
    intro rs h
    simp only [execRoots] at h
    cases h1 : execPattern fuel fragments matcher (.field n) with
    | error e => rw [h1] at h; cases h
    | ok r =>
      rw [h1] at h
      cases h2 : execRoots fuel fragments matcher rest with
      | error e => rw [h2] at h; cases h
      | ok rs' =>
        rw [h2] at h
        cases h
        exact List.Forall₂.cons h1 (ih rs' h2)

/-- `execRoots` succeeds when every root node's resolution succeeds. -/
theorem execRoots_ok_of_all (fuel : Nat) (fragments : FragmentMap)
    (matcher : List Pattern) :
    ∀ nodes : List FieldNode,
      (∀ n ∈ nodes, ∃ r,
        execPattern fuel fragments matcher (.field n) = .ok r) →
      ∃ rs, execRoots fuel fragments matcher nodes = .ok rs := by
  intro nodes
  induction nodes with
  | nil => intro _; exact ⟨[], by simp [execRoots]⟩
  | cons n rest ih =>
    intro h
    obtain ⟨r, hr⟩ := h n (List.mem_cons_self _ _)
    obtain ⟨rs, hrs⟩ := ih (fun m hm => h m (List.mem_cons_of_mem _ hm))
    exact ⟨r :: rs, by simp [execRoots, hr, hrs]⟩

/-- C8: for a bundle of root field nodes the matcher is run once per root
node against the full pattern (one result tree per node), and the answer is
true exactly when at least one root node's result tree is not dead. -/
theorem rootBundle_any_live :
    ∀ (fuel : Nat) (fragments : FragmentMap) (matcher : List Pattern)
      (nodes : List FieldNode),
      (∀ n ∈ nodes, ∃ r,
        execPattern fuel fragments matcher (.field n) = .ok r) →
      (∃ rs, execRoots fuel fragments matcher nodes = .ok rs ∧
        rs.length = nodes.length ∧
        doesQueryMatch fuel matcher (.apolloInfo (some nodes) fragments) =
          .ok (rs.any fun r => !hasOnlyDeepEmptyArrays r)) ∧
      (doesQueryMatch fuel matcher (.apolloInfo (some nodes) fragments) =
          .ok true ↔
        ∃ n ∈ nodes, ∃ r,
          execPattern fuel fragments matcher (.field n) = .ok r ∧
            hasOnlyDeepEmptyArrays r = false) := by
  intro fuel fragments matcher nodes hall
  obtain ⟨rs, hrs⟩ := execRoots_ok_of_all fuel fragments matcher nodes hall
  have hf2 := execRoots_forall2 fuel fragments matcher nodes rs hrs
  have hlen : rs.length = nodes.length := (List.Forall₂.length_eq hf2).symm
  have hmatch : doesQueryMatch fuel matcher
      (.apolloInfo (some nodes) fragments) =
      .ok (rs.any fun r => !hasOnlyDeepEmptyArrays r) := by
    simp [doesQueryMatch, hrs]
  refine ⟨⟨rs, hrs, hlen, hmatch⟩, ?_⟩
  rw [hmatch]
  have hany : (rs.any fun r => !hasOnlyDeepEmptyArrays r) = true ↔
      ∃ r ∈ rs, hasOnlyDeepEmptyArrays r = false := by
    simp [List.any_eq_true]
  constructor
  · intro h
    have hb : (rs.any fun r => !hasOnlyDeepEmptyArrays r) = true := by
      cases hb2 : (rs.any fun r => !hasOnlyDeepEmptyArrays r) with
      | true => rfl
      | false => rw [hb2] at h; cases h
    exact (forall2_exists_transfer hf2).mp (hany.mp hb)
  · intro h
    have := (forall2_exists_transfer hf2).mpr h
    rw [hany.mpr this]

/-- Witness for C8: the first root node fails, the second matches. -/
theorem rootBundle_any_live_witness :
    doesQueryMatch 1 [Pattern.mk "b" none]
        (.apolloInfo (some [("t1", some [Selection.field "a" none]),
                            ("t2", some [Selection.field "b" none])]) []) =
      .ok true := by
  have h := (rootBundle_any_live 1 [] [Pattern.mk "b" none]
    [("t1", some [Selection.field "a" none]),
     ("t2", some [Selection.field "b" none])]
    (by
      intro n hn
      rcases List.mem_cons.mp hn with h1 | h1
      · exact ⟨[("b", RVal.branches [])], by
          subst h1
          simp [execPattern, execField, resolveField, collectCandidates,
            spreadNames, fragmentCandidates, directSelections]⟩
      · have h2 : n = ("t2", some [Selection.field "b" none]) := by
          simpa using h1
        exact ⟨[("b", RVal.leafSat)], by
          subst h2
          simp [execPattern, execField, resolveField, collectCandidates,
            spreadNames, fragmentCandidates, directSelections]⟩)).2
  rw [h]
  refine ⟨("t2", some [Selection.field "b" none]), by simp, [("b", RVal.leafSat)], ?_, ?_⟩
  · simp [execPattern, execField, resolveField, collectCandidates,
      spreadNames, fragmentCandidates, directSelections]
  · simp [hasOnlyDeepEmptyArrays, deadEntry]

/-! ## C4: the fragment resolver returns exactly the reachable fields -/

/-- One step of fragment reference: fragment `a`, defined in the map,
contains a spread of `b`. -/
def FragRef (fragments : FragmentMap) (a b : String) : Prop :=
  ∃ sels, fragments.lookup a = some sels ∧ Selection.fragmentSpread b ∈ sels

/-- Modelled from the spec (§4.2 describes the walk): the field nodes named
`fieldName` reachable through a named fragment, recursively expanding nested
fragment spreads. -/
inductive FragReach (fragments : FragmentMap) (fieldName : String) :
    String → FieldNode → Prop where
  | direct {fragName : String} {sels : List Selection} {n : String}
      {c : Option (List Selection)} :
      fragments.lookup fragName = some sels →
      Selection.field n c ∈ sels → n = fieldName →
      FragReach fragments fieldName fragName (n, c)
  | viaSpread {fragName : String} {sels : List Selection} {m : String}
      {fn : FieldNode} :
      fragments.lookup fragName = some sels →
      Selection.fragmentSpread m ∈ sels →
      FragReach fragments fieldName m fn →
      FragReach fragments fieldName fragName fn

/-- Every element of a successful `fragSelections` run comes from a matching
field of the walked selections or from a spread in them. -/
theorem fragSelections_sound (fragments : FragmentMap) (fieldName : String)
    (k : Nat)
    (hg : ∀ g lm fn, getFragmentFieldSelections k g fragments fieldName = .ok lm →
      fn ∈ lm → FragReach fragments fieldName g fn) :
    ∀ (sels : List Selection) (l : List FieldNode),
      fragSelections k sels fragments fieldName = .ok l →
      ∀ fn ∈ l,
        (∃ n c, Selection.field n c ∈ sels ∧ n = fieldName ∧ fn = (n, c)) ∨
        (∃ m, Selection.fragmentSpread m ∈ sels ∧
          FragReach fragments fieldName m fn) := by
  intro sels
  induction sels with
  | nil =>
    intro l h fn hfn
    simp only [fragSelections] at h
    cases h
    cases hfn
  | cons s rest ih =>
    intro l h fn hfn
    cases s with
    | field n c =>
      simp only [fragSelections] at h
      cases h1 : fragSelections k rest fragments fieldName with
      | error e => rw [h1] at h; cases h
      | ok there =>
        rw [h1] at h
        cases h
        rcases List.mem_append.mp hfn with hmem | hmem
        · by_cases hn : n = fieldName
          · rw [if_pos hn] at hmem
            simp only [List.mem_singleton] at hmem
            exact Or.inl ⟨n, c, List.mem_cons_self _ _, hn, hmem⟩
          · rw [if_neg hn] at hmem
            cases hmem
        · rcases ih there h1 fn hmem with h2 | h2
          · obtain ⟨n', c', hsel, hn', hfn'⟩ := h2
            exact Or.inl ⟨n', c', List.mem_cons_of_mem _ hsel, hn', hfn'⟩
          · obtain ⟨m, hsel, hreach⟩ := h2
            exact Or.inr ⟨m, List.mem_cons_of_mem _ hsel, hreach⟩
    | fragmentSpread n =>
      simp only [fragSelections] at h
      cases h1 : getFragmentFieldSelections k n fragments fieldName with
      | error e => rw [h1] at h; cases h
      | ok here =>
        rw [h1] at h
        cases h2 : fragSelections k rest fragments fieldName with
        | error e => rw [h2] at h; cases h
        | ok there =>
          rw [h2] at h
          cases h
          rcases List.mem_append.mp hfn with hmem | hmem
          · exact Or.inr ⟨n, List.mem_cons_self _ _, hg n here fn h1 hmem⟩
          · rcases ih there h2 fn hmem with h3 | h3
            · obtain ⟨n', c', hsel, hn', hfn'⟩ := h3
              exact Or.inl ⟨n', c', List.mem_cons_of_mem _ hsel, hn', hfn'⟩
            · obtain ⟨m, hsel, hreach⟩ := h3
              exact Or.inr ⟨m, List.mem_cons_of_mem _ hsel, hreach⟩
    | other =>
      simp only [fragSelections] at h
      rcases ih l h fn hfn with h2 | h2
      · obtain ⟨n', c', hsel, hn', hfn'⟩ := h2
        exact Or.inl ⟨n', c', List.mem_cons_of_mem _ hsel, hn', hfn'⟩
      · obtain ⟨m, hsel, hreach⟩ := h2
        exact Or.inr ⟨m, List.mem_cons_of_mem _ hsel, hreach⟩

/-- Soundness: every field node returned by the fragment resolver is
reachable through the named fragment. -/
theorem getFragmentFieldSelections_sound (fragments : FragmentMap)
    (fieldName : String) :
    ∀ (fuel : Nat) (g : String) (lm : List FieldNode) (fn : FieldNode),
      getFragmentFieldSelections fuel g fragments fieldName = .ok lm →
      fn ∈ lm → FragReach fragments fieldName g fn := by
  intro fuel
  induction fuel with
  | zero => intro g lm fn h; simp only [getFragmentFieldSelections] at h; cases h
  | succ k ih =>
    intro g lm fn h hfn
    simp only [getFragmentFieldSelections] at h
    cases hlook : fragments.lookup g with
    | none => rw [hlook] at h; cases h
    | some sels =>
      rw [hlook] at h
      rcases fragSelections_sound fragments fieldName k ih sels lm h fn hfn
        with h2 | h2
      · obtain ⟨n, c, hsel, hn, hfn'⟩ := h2
        subst hfn'
        exact FragReach.direct hlook hsel hn
      · obtain ⟨m, hsel, hreach⟩ := h2
        exact FragReach.viaSpread hlook hsel hreach

/-- A matching field of the walked selections lands in the result. -/
theorem fragSelections_complete_field (fragments : FragmentMap)
    (fieldName : String) (k : Nat) :
    ∀ (sels : List Selection) (l : List FieldNode) (n : String)
      (c : Option (List Selection)),
      fragSelections k sels fragments fieldName = .ok l →
      Selection.field n c ∈ sels → n = fieldName → (n, c) ∈ l := by
  intro sels
  induction sels with
  | nil => intro l n c _ hmem; cases hmem
  | cons s rest ih =>
    intro l n c h hmem hn
    cases s with
    | field n' c' =>
      simp only [fragSelections] at h
      cases h1 : fragSelections k rest fragments fieldName with
      | error e => rw [h1] at h; cases h
      | ok there =>
        rw [h1] at h
        cases h
        rcases List.mem_cons.mp hmem with h2 | h2
        · have hn' : n' = n := by cases h2; rfl
          have hc' : c' = c := by cases h2; rfl
          subst hn'; subst hc'
          rw [if_pos hn]
          exact List.mem_append.mpr (Or.inl (List.mem_singleton.mpr rfl))
        · exact List.mem_append.mpr (Or.inr (ih there n c h1 h2 hn))
    | fragmentSpread n' =>
      simp only [fragSelections] at h
      cases h1 : getFragmentFieldSelections k n' fragments fieldName with
      | error e => rw [h1] at h; cases h
      | ok here =>
        rw [h1] at h
        cases h2 : fragSelections k rest fragments fieldName with
        | error e => rw [h2] at h; cases h
        | ok there =>
          rw [h2] at h
          cases h
          rcases List.mem_cons.mp hmem with h3 | h3
          · cases h3
          · exact List.mem_append.mpr (Or.inr (ih there n c h2 h3 hn))
    | other =>
      simp only [fragSelections] at h
      rcases List.mem_cons.mp hmem with h2 | h2
      · cases h2
      · exact ih l n c h h2 hn

/-- A spread among the walked selections was itself resolved successfully and
its results are included. -/
theorem fragSelections_complete_spread (fragments : FragmentMap)
    (fieldName : String) (k : Nat) :
    ∀ (sels : List Selection) (l : List FieldNode) (m : String),
      fragSelections k sels fragments fieldName = .ok l →
      Selection.fragmentSpread m ∈ sels →
      ∃ lm, getFragmentFieldSelections k m fragments fieldName = .ok lm ∧
        ∀ x ∈ lm, x ∈ l := by
  intro sels
  induction sels with
  | nil => intro l m _ hmem; cases hmem
  | cons s rest ih =>
    intro l m h hmem
    cases s with
    | field n' c' =>
      simp only [fragSelections] at h
      cases h1 : fragSelections k rest fragments fieldName with
      | error e => rw [h1] at h; cases h
      | ok there =>
        rw [h1] at h
        cases h
        rcases List.mem_cons.mp hmem with h2 | h2
        · cases h2
        · obtain ⟨lm, hlm, hsub⟩ := ih there m h1 h2
          exact ⟨lm, hlm, fun x hx =>
            List.mem_append.mpr (Or.inr (hsub x hx))⟩
    | fragmentSpread n' =>
      simp only [fragSelections] at h
      cases h1 : getFragmentFieldSelections k n' fragments fieldName with
      | error e => rw [h1] at h; cases h
      | ok here =>
        rw [h1] at h
        cases h2 : fragSelections k rest fragments fieldName with
        | error e => rw [h2] at h; cases h
        | ok there =>
          rw [h2] at h
          cases h
          rcases List.mem_cons.mp hmem with h3 | h3
          · have hm : n' = m := by cases h3; rfl
            subst hm
            exact ⟨here, h1, fun x hx =>
              List.mem_append.mpr (Or.inl hx)⟩
          · obtain ⟨lm, hlm, hsub⟩ := ih there m h2 h3
            exact ⟨lm, hlm, fun x hx =>
              List.mem_append.mpr (Or.inr (hsub x hx))⟩
    | other =>
      simp only [fragSelections] at h
      rcases List.mem_cons.mp hmem with h2 | h2
      · cases h2
      · exact ih l m h h2

/-- Completeness: every reachable field node appears in a successful
resolver run. -/
theorem getFragmentFieldSelections_complete (fragments : FragmentMap)
    (fieldName : String) {g : String} {fn : FieldNode}
    (hreach : FragReach fragments fieldName g fn) :
    ∀ (fuel : Nat) (l : List FieldNode),
      getFragmentFieldSelections fuel g fragments fieldName = .ok l →
      fn ∈ l := by
  induction hreach with
  | direct hlook hsel hn =>
    intro fuel l h
    cases fuel with
    | zero => simp only [getFragmentFieldSelections] at h; cases h
    | succ k =>
      simp only [getFragmentFieldSelections, hlook] at h
      exact fragSelections_complete_field fragments fieldName k _ l _ _ h hsel hn
  | viaSpread hlook hsel _ ih =>
    intro fuel l h
    cases fuel with
    | zero => simp only [getFragmentFieldSelections] at h; cases h
    | succ k =>
      simp only [getFragmentFieldSelections, hlook] at h
      obtain ⟨lm, hlm, hsub⟩ :=
        fragSelections_complete_spread fragments fieldName k _ l _ h hsel
      exact hsub _ (ih k lm hlm)

/-- Any thrown error of the walk names a fragment absent from the map. -/
theorem fragSelections_error_thrown (fragments : FragmentMap)
    (fieldName : String) (k : Nat)
    (hg : ∀ g msg,
      getFragmentFieldSelections k g fragments fieldName =
        .error (.thrown msg) →
      ∃ n, msg = "Referenced non-existent fragment " ++ n ∧
        fragments.lookup n = none) :
    ∀ (sels : List Selection) (msg : String),
      fragSelections k sels fragments fieldName = .error (.thrown msg) →
      ∃ n, msg = "Referenced non-existent fragment " ++ n ∧
        fragments.lookup n = none := by
  intro sels
  induction sels with
  | nil => intro msg h; simp [fragSelections] at h
  | cons s rest ih =>
    intro msg h
    cases s with
    | field n' c' =>
      simp only [fragSelections] at h
      cases h1 : fragSelections k rest fragments fieldName with
      | error e =>
        rw [h1] at h
        cases h
        exact ih msg h1
      | ok there => rw [h1] at h; cases h
    | fragmentSpread n' =>
      simp only [fragSelections] at h
      cases h1 : getFragmentFieldSelections k n' fragments fieldName with
      | error e =>
        rw [h1] at h
        cases h
        exact hg n' msg h1
      | ok here =>
        rw [h1] at h
        cases h2 : fragSelections k rest fragments fieldName with
        | error e =>
          rw [h2] at h
          cases h
          exact ih msg h2
        | ok there => rw [h2] at h; cases h
    | other =>
      simp only [fragSelections] at h
      exact ih msg h

/-- Any thrown error of the fragment resolver names a fragment absent from
the map. -/
theorem getFragmentFieldSelections_error_thrown (fragments : FragmentMap)
    (fieldName : String) :
    ∀ (fuel : Nat) (g : String) (msg : String),
      getFragmentFieldSelections fuel g fragments fieldName =
        .error (.thrown msg) →
      ∃ n, msg = "Referenced non-existent fragment " ++ n ∧
        fragments.lookup n = none := by
  intro fuel
  induction fuel with
  | zero => intro g msg h; simp [getFragmentFieldSelections] at h
  | succ k ih =>
    intro g msg h
    simp only [getFragmentFieldSelections] at h
    cases hlook : fragments.lookup g with
    | none =>
      rw [hlook] at h
      simp only [Except.error.injEq, Err.thrown.injEq] at h
      exact ⟨g, h.symm, hlook⟩
    | some sels =>
      rw [hlook] at h
      exact fragSelections_error_thrown fragments fieldName k ih sels msg h

/-- A successful resolution extends to every spread of the walked fragment,
with strictly less fuel. -/
theorem getFragmentFieldSelections_ok_step (fragments : FragmentMap)
    (fieldName : String) :
    ∀ (fuel : Nat) (a : String) (l : List FieldNode) (b : String),
      getFragmentFieldSelections fuel a fragments fieldName = .ok l →
      FragRef fragments a b →
      ∃ k lb, k < fuel ∧
        getFragmentFieldSelections k b fragments fieldName = .ok lb := by
  intro fuel a l b h href
  obtain ⟨sels, hlook, hmem⟩ := href
  cases fuel with
  | zero => simp [getFragmentFieldSelections] at h
  | succ k =>
    simp only [getFragmentFieldSelections, hlook] at h
    obtain ⟨lb, hlb, _⟩ :=
      fragSelections_complete_spread fragments fieldName k sels l b h hmem
    exact ⟨k, lb, Nat.lt_succ_self k, hlb⟩

/-- On success, every fragment name transitively referenced from the resolved
fragment is defined in the map. -/
theorem getFragmentFieldSelections_ok_refs_defined (fragments : FragmentMap)
    (fieldName : String) :
    ∀ (fuel : Nat) (a : String) (l : List FieldNode),
      getFragmentFieldSelections fuel a fragments fieldName = .ok l →
      ∀ b, Relation.ReflTransGen (FragRef fragments) a b →
        fragments.lookup b ≠ none := by
  intro fuel
  induction fuel using Nat.strong_induction_on with
  | _ fuel ih =>
    intro a l h b hrtg
    rcases Relation.ReflTransGen.cases_head hrtg with heq | ⟨c, hac, hcb⟩
    · subst heq
      cases fuel with
      | zero => simp [getFragmentFieldSelections] at h
      | succ k =>
        intro hnone
        simp [getFragmentFieldSelections, hnone] at h
    · obtain ⟨k, lc, hk, hok⟩ :=
        getFragmentFieldSelections_ok_step fragments fieldName fuel a l c h hac
      exact ih k hk c lc hok b hcb

/-- C4: a successful fragment resolution returns exactly the field nodes
named `fieldName` reachable through the named fragment (recursively through
nested spreads); a missing fragment yields the error naming it, every thrown
error names a fragment absent from the map, and on success every
transitively referenced fragment is present in the map. -/
theorem fragmentResolver_exact_and_errors :
    ∀ (fuel : Nat) (fragName : String) (fragments : FragmentMap)
      (fieldName : String),
      (∀ l, getFragmentFieldSelections fuel fragName fragments fieldName =
          .ok l →
        ∀ fn, fn ∈ l ↔ FragReach fragments fieldName fragName fn) ∧
      (fragments.lookup fragName = none →
        getFragmentFieldSelections (fuel + 1) fragName fragments fieldName =
          .error (.thrown ("Referenced non-existent fragment " ++ fragName))) ∧
      (∀ msg, getFragmentFieldSelections fuel fragName fragments fieldName =
          .error (.thrown msg) →
        ∃ n, msg = "Referenced non-existent fragment " ++ n ∧
          fragments.lookup n = none) ∧
      (∀ l b, getFragmentFieldSelections fuel fragName fragments fieldName =
          .ok l →
        Relation.ReflTransGen (FragRef fragments) fragName b →
        fragments.lookup b ≠ none) := by
  intro fuel fragName fragments fieldName
  refine ⟨?_, ?_, ?_, ?_⟩
  · intro l hok fn
    constructor
    · exact getFragmentFieldSelections_sound fragments fieldName fuel
        fragName l fn hok
    · intro hreach
      exact getFragmentFieldSelections_complete fragments fieldName hreach
        fuel l hok
  · intro hnone
    simp [getFragmentFieldSelections, hnone]
  · exact getFragmentFieldSelections_error_thrown fragments fieldName fuel
      fragName
  · intro l b hok hrtg
    exact getFragmentFieldSelections_ok_refs_defined fragments fieldName fuel
      fragName l hok b hrtg

/-- Witness for C4: a nested spread is expanded and an undefined fragment is
reported by name. -/
theorem fragmentResolver_exact_and_errors_witness :
    FragReach [("F", [Selection.fragmentSpread "G"]),
               ("G", [Selection.field "a" none])] "a" "F" ("a", none) ∧
      getFragmentFieldSelections 1 "H" [] "a" =
        .error (.thrown "Referenced non-existent fragment H") := by
  constructor
  · have h := (fragmentResolver_exact_and_errors 2 "F"
      [("F", [Selection.fragmentSpread "G"]),
       ("G", [Selection.field "a" none])] "a").1 [("a", none)]
      (by simp [getFragmentFieldSelections, fragSelections, List.lookup])
      ("a", none)
    exact h.mp (by simp)
  · exact (fragmentResolver_exact_and_errors 0 "H" [] "a").2.1
      (by simp [List.lookup])

/-! ## C6: termination on acyclic fragment graphs -/

/-- Acyclicity of the fragment-reference graph, witnessed by a rank function
bounded by `B` that strictly decreases along every fragment spread (any DAG
of fragment references admits such a rank, with `B` at most the number of
fragments). -/
def AcyclicBound (fragments : FragmentMap) (B : Nat) : Prop :=
  ∃ rank : String → Nat, (∀ s, rank s ≤ B) ∧
    ∀ a sels b, fragments.lookup a = some sels →
      Selection.fragmentSpread b ∈ sels → rank b < rank a

/-- If no spread of `sels` runs out of fuel, neither does the walk. -/
theorem fragSelections_no_outOfFuel (fragments : FragmentMap)
    (fieldName : String) (k : Nat) :
    ∀ sels : List Selection,
      (∀ m, Selection.fragmentSpread m ∈ sels →
        getFragmentFieldSelections k m fragments fieldName ≠
          .error .outOfFuel) →
      fragSelections k sels fragments fieldName ≠ .error .outOfFuel := by
  intro sels
  induction sels with
  | nil => intro _ h; simp [fragSelections] at h
  | cons s rest ih =>
    intro hm h
    cases s with
    | field n c =>
      simp only [fragSelections] at h
      cases h1 : fragSelections k rest fragments fieldName with
      | error e =>
        rw [h1] at h
        cases h
        exact ih (fun m hmem => hm m (List.mem_cons_of_mem _ hmem)) h1
      | ok there => rw [h1] at h; cases h
    | fragmentSpread n =>
      simp only [fragSelections] at h
      cases h1 : getFragmentFieldSelections k n fragments fieldName with
      | error e =>
        rw [h1] at h
        cases h
        exact hm n (List.mem_cons_self _ _) h1
      | ok here =>
        rw [h1] at h
        cases h2 : fragSelections k rest fragments fieldName with
        | error e =>
          rw [h2] at h
          cases h
          exact ih (fun m hmem => hm m (List.mem_cons_of_mem _ hmem)) h2
        | ok there => rw [h2] at h; cases h
    | other =>
      simp only [fragSelections] at h
      exact ih (fun m hmem => hm m (List.mem_cons_of_mem _ hmem)) h

/-- With more fuel than the rank of the fragment, the resolver never runs out
of fuel. -/
theorem getFragmentFieldSelections_no_outOfFuel (fragments : FragmentMap)
    (fieldName : String) (rank : String → Nat)
    (hrank : ∀ a sels b, fragments.lookup a = some sels →
      Selection.fragmentSpread b ∈ sels → rank b < rank a) :
    ∀ (fuel : Nat) (n : String), rank n < fuel →
      getFragmentFieldSelections fuel n fragments fieldName ≠
        .error .outOfFuel := by
  intro fuel
  induction fuel using Nat.strong_induction_on with
  | _ fuel ih =>
    intro n hn
    cases fuel with
    | zero => omega
    | succ k =>
      intro h
      simp only [getFragmentFieldSelections] at h
      cases hlook : fragments.lookup n with
      | none => rw [hlook] at h; cases h
      | some sels =>
        rw [hlook] at h
        refine fragSelections_no_outOfFuel fragments fieldName k sels
          ?_ h
        intro m hmem
        have h1 : rank m < rank n := hrank n sels m hlook hmem
        exact ih k (Nat.lt_succ_self k) m (by omega)

/-- `fragmentCandidates` never runs out of fuel when no single resolution
does. -/
theorem fragmentCandidates_no_outOfFuel (fuel : Nat)
    (fragments : FragmentMap) (fieldName : String) :
    ∀ names : List String,
      (∀ n ∈ names, getFragmentFieldSelections fuel n fragments fieldName ≠
        .error .outOfFuel) →
      fragmentCandidates fuel fragments fieldName names ≠
        .error .outOfFuel := by
  intro names
  induction names with
  | nil => intro _ h; simp [fragmentCandidates] at h
  | cons n rest ih =>
    intro hall h
    simp only [fragmentCandidates] at h
    cases h1 : getFragmentFieldSelections fuel n fragments fieldName with
    | error e =>
      rw [h1] at h
      cases h
      exact hall n (List.mem_cons_self _ _) h1
    | ok here =>
      rw [h1] at h
      cases h2 : fragmentCandidates fuel fragments fieldName rest with
      | error e =>
        rw [h2] at h
        cases h
        exact ih (fun m hm => hall m (List.mem_cons_of_mem _ hm)) h2
      | ok there => rw [h2] at h; cases h

/-- Candidate collection never runs out of fuel over an acyclic fragment map
with enough fuel. -/
theorem candidatesOf_no_outOfFuel (fuel B : Nat) (fragments : FragmentMap)
    (hA : AcyclicBound fragments B) (hB : B < fuel) :
    ∀ (fieldName : String) (root : RootValue),
      candidatesOf fuel fragments fieldName root ≠ .error .outOfFuel := by
  obtain ⟨rank, hbound, hrank⟩ := hA
  have hget : ∀ (fieldName n : String),
      getFragmentFieldSelections fuel n fragments fieldName ≠
        .error .outOfFuel := by
    intro fieldName n
    refine getFragmentFieldSelections_no_outOfFuel fragments fieldName rank
      hrank fuel n ?_
    have := hbound n
    omega
  have hcollect : ∀ (fieldName : String) (sels : List Selection),
      collectCandidates fuel fragments fieldName sels ≠
        .error .outOfFuel := by
    intro fieldName sels h
    simp only [collectCandidates] at h
    cases h1 : fragmentCandidates fuel fragments fieldName
        (spreadNames sels) with
    | error e =>
      rw [h1] at h
      cases h
      exact fragmentCandidates_no_outOfFuel fuel fragments fieldName
        (spreadNames sels) (fun n _ => hget fieldName n) h1
    | ok frag => rw [h1] at h; cases h
  intro fieldName root
  cases root with
  | opDef sels => exact hcollect fieldName sels
  | field node =>
    obtain ⟨n, c⟩ := node
    cases c with
    | none => simp [candidatesOf]
    | some sels => exact hcollect fieldName sels

/-- The resolver never runs out of fuel when candidate collection does not. -/
theorem resolveField_no_outOfFuel (fuel : Nat) (fragments : FragmentMap)
    (fieldName : String) (isLeaf : Bool) (root : RootValue)
    (hc : candidatesOf fuel fragments fieldName root ≠ .error .outOfFuel) :
    resolveField fuel fragments fieldName isLeaf root ≠
      .error .outOfFuel := by
  rw [resolveField_eq_candidatesOf]
  cases h1 : candidatesOf fuel fragments fieldName root with
  | error e =>
    intro h
    simp only [Except.map] at h
    cases h
    exact hc h1
  | ok cands =>
    intro h
    simp only [Except.map] at h
    cases h

/-- The driver never runs out of fuel when candidate collection never
does; proved with the functional induction principle of the driver. -/
theorem execPattern_no_outOfFuel (fuel : Nat) (fragments : FragmentMap)
    (hc : ∀ fieldName root,
      candidatesOf fuel fragments fieldName root ≠ .error .outOfFuel)
    (ps : List Pattern) (root : RootValue) :
    execPattern fuel fragments ps root ≠ .error .outOfFuel := by
  refine execPattern.induct fuel fragments
    (fun ps root => execPattern fuel fragments ps root ≠ .error .outOfFuel)
    (fun p root => execField fuel fragments p root ≠ .error .outOfFuel)
    (fun cs cands =>
      execBranches fuel fragments cs cands ≠ .error .outOfFuel)
    ?_ ?_ ?_ ?_ ?_ ?_ ?_ ?_ ?_ ?_ ?_ ?_ ?_ ps root
  · intro root
    simp [execPattern]
  · intro p rest root e hf ih h
    simp only [execPattern, hf] at h
    cases h
    exact ih hf
  · intro p rest root e hf e2 hp _ ih h
    simp only [execPattern, hf, hp] at h
    cases h
    exact ih hp
  · intro p rest root e hf es hp _ _ h
    simp only [execPattern, hf, hp] at h
    cases h
  · intro name children root e hr h
    simp only [execField, hr] at h
    cases h
    exact resolveField_no_outOfFuel fuel fragments name children.isNone
      root (hc name root) hr
  · intro name children root hr h
    simp only [execField, hr] at h
    cases h
  · intro name root cands hr h
    simp only [execField, hr] at h
    cases h
  · intro name root cands cs e hb hr ih h
    simp only [execField, hr, hb] at h
    cases h
    exact ih hb
  · intro name root cands cs rs hb hr _ h
    simp only [execField, hr, hb] at h
    cases h
  · intro cs
    simp [execBranches]
  · intro cs c rest e h1 ih h
    simp only [execBranches, h1] at h
    cases h
    exact ih h1
  · intro cs c rest es h1 e h2 _ ih h
    simp only [execBranches, h1, h2] at h
    cases h
    exact ih h2
  · intro cs c rest es h1 rs h2 _ _ h
    simp only [execBranches, h1, h2] at h
    cases h

/-- Resolving the bundle's root nodes never runs out of fuel when candidate
collection never does. -/
theorem execRoots_no_outOfFuel (fuel : Nat) (fragments : FragmentMap)
    (matcher : List Pattern)
    (hc : ∀ fieldName root,
      candidatesOf fuel fragments fieldName root ≠ .error .outOfFuel) :
    ∀ nodes : List FieldNode,
      execRoots fuel fragments matcher nodes ≠ .error .outOfFuel := by
  intro nodes
  induction nodes with
  | nil => simp [execRoots]
  | cons n rest ih =>
    intro h
    simp only [execRoots] at h
    cases h1 : execPattern fuel fragments matcher (.field n) with
    | error e =>
      rw [h1] at h
      cases h
      exact execPattern_no_outOfFuel fuel fragments hc matcher (.field n) h1
    | ok r =>
      rw [h1] at h
      cases h2 : execRoots fuel fragments matcher rest with
      | error e =>
        rw [h2] at h
        cases h
        exact ih h2
      | ok rs => rw [h2] at h; cases h

/-- The fragment map a query input supplies to the matcher. -/
def fragsOfQuery : QueryInput → FragmentMap
  | .document defs => buildFrags defs []
  | .apolloInfo _ fragments => fragments

/-- C6: on any target whose fragment-reference relation is acyclic (expressed
by a bounded, spread-decreasing rank function), `doesQueryMatch` never
exhausts its fuel once the fuel exceeds the bound — i.e. the source's
unbounded recursion is well-founded on acyclic fragment maps. -/
theorem matcher_terminates_on_acyclic :
    ∀ (fuel B : Nat) (matcher : List Pattern) (q : QueryInput),
      AcyclicBound (fragsOfQuery q) B → B < fuel →
      doesQueryMatch fuel matcher q ≠ .error .outOfFuel := by
  intro fuel B matcher q hA hB
  have hc := candidatesOf_no_outOfFuel fuel B (fragsOfQuery q) hA hB
  cases q with
  | apolloInfo fns fragments =>
    cases fns with
    | none => simp [doesQueryMatch]
    | some nodes =>
      intro h
      simp only [doesQueryMatch] at h
      cases h1 : execRoots fuel fragments matcher nodes with
      | error e =>
        rw [h1] at h
        cases h
        exact execRoots_no_outOfFuel fuel fragments matcher hc nodes h1
      | ok rs => rw [h1] at h; cases h
  | document defs =>
    intro h
    simp only [doesQueryMatch] at h
    cases hop : findFirstOp defs with
    | none => rw [hop] at h; cases h
    | some sels =>
      simp only [hop] at h
      cases h1 : execPattern fuel (buildFrags defs []) matcher
          (.opDef sels) with
      | error e =>
        rw [h1] at h
        cases h
        exact execPattern_no_outOfFuel fuel (buildFrags defs []) hc matcher
          (.opDef sels) h1
      | ok r => rw [h1] at h; cases h

/-- Witness for C6: a two-fragment chain is acyclic with bound 2, and with
fuel 3 the match completes without fuel exhaustion. -/
theorem matcher_terminates_on_acyclic_witness :
    AcyclicBound [("F", [Selection.fragmentSpread "G"]),
                  ("G", [Selection.field "a" none])] 2 ∧
      doesQueryMatch 3 [Pattern.mk "a" none]
          (.apolloInfo (some [("t", some [Selection.fragmentSpread "F"])])
            [("F", [Selection.fragmentSpread "G"]),
             ("G", [Selection.field "a" none])]) ≠
        .error .outOfFuel := by
  have hA : AcyclicBound [("F", [Selection.fragmentSpread "G"]),
      ("G", [Selection.field "a" none])] 2 := by
    refine ⟨fun s => if s = "F" then 2 else if s = "G" then 1 else 0,
      ?_, ?_⟩
    · intro s
      by_cases h1 : s = "F" <;> by_cases h2 : s = "G" <;> simp [h1, h2]
    · intro a sels b hlook hmem
      by_cases h1 : a = "F"
      · subst h1
        simp [List.lookup] at hlook
        subst hlook
        have hb : b = "G" := by
          rcases List.mem_singleton.mp hmem with h
          cases h
          rfl
        subst hb
        simp
      · by_cases h2 : a = "G"
        · subst h2
          simp [List.lookup] at hlook
          subst hlook
          simp at hmem
        · have e1 : (a == "F") = false := beq_eq_false_iff_ne.mpr h1
          have e2 : (a == "G") = false := beq_eq_false_iff_ne.mpr h2
          simp [List.lookup, e1, e2] at hlook
  exact ⟨hA, matcher_terminates_on_acyclic 3 2 [Pattern.mk "a" none]
    (.apolloInfo (some [("t", some [Selection.fragmentSpread "F"])])
      [("F", [Selection.fragmentSpread "G"]),
       ("G", [Selection.field "a" none])]) hA (by omega)⟩

/-! ## C7: inlining a fragment spread preserves the match -/

/-- Once the fragment resolver has enough fuel not to exhaust it, giving it
more fuel changes nothing. -/
theorem getFragmentFieldSelections_fuel_stable :
    ∀ (fuel : Nat) (n : String) (fragments : FragmentMap)
      (fieldName : String),
      getFragmentFieldSelections fuel n fragments fieldName ≠
        .error .outOfFuel →
      ∀ fuel2, fuel ≤ fuel2 →
        getFragmentFieldSelections fuel2 n fragments fieldName =
          getFragmentFieldSelections fuel n fragments fieldName := by
  refine getFragmentFieldSelections.induct
    (fun fuel n fragments fieldName =>
      getFragmentFieldSelections fuel n fragments fieldName ≠
        .error .outOfFuel →
      ∀ fuel2, fuel ≤ fuel2 →
        getFragmentFieldSelections fuel2 n fragments fieldName =
          getFragmentFieldSelections fuel n fragments fieldName)
    (fun fuel sels fragments fieldName =>
      fragSelections fuel sels fragments fieldName ≠ .error .outOfFuel →
      ∀ fuel2, fuel ≤ fuel2 →
        fragSelections fuel2 sels fragments fieldName =
          fragSelections fuel sels fragments fieldName)
    ?_ ?_ ?_ ?_ ?_ ?_ ?_ ?_ ?_ ?_
  · intro n fragments fieldName hno
    exact absurd (by simp [getFragmentFieldSelections]) hno
  · intro fuel n fragments fieldName sels hlook ih hno fuel2 hle
    cases fuel2 with
    | zero => omega
    | succ k2 =>
      have hle2 : fuel ≤ k2 := by omega
      simp only [getFragmentFieldSelections, hlook]
      refine ih ?_ k2 hle2
      intro hfr
      apply hno
      simp [getFragmentFieldSelections, hlook, hfr]
  · intro fuel n fragments fieldName hlook hno fuel2 hle
    cases fuel2 with
    | zero => omega
    | succ k2 =>
      simp [getFragmentFieldSelections, hlook]
  · intro fuel fragments fieldName hno fuel2 hle
    simp [fragSelections]
  · intro fuel n c rest fragments fieldName e hrest ih hno fuel2 hle
    have hrest2 : fragSelections fuel rest fragments fieldName ≠
        .error .outOfFuel := by
      intro hx
      apply hno
      simp [fragSelections, hx]
    simp only [fragSelections, ih hrest2 fuel2 hle]
  · intro fuel n c rest fragments fieldName there hrest ih hno fuel2 hle
    have hrest2 : fragSelections fuel rest fragments fieldName ≠
        .error .outOfFuel := by simp [hrest]
    simp only [fragSelections, ih hrest2 fuel2 hle]
  · intro fuel n rest fragments fieldName e hget ih hno fuel2 hle
    have hget2 : getFragmentFieldSelections fuel n fragments fieldName ≠
        .error .outOfFuel := by
      intro hx
      apply hno
      simp [fragSelections, hx]
    simp only [fragSelections, ih hget2 fuel2 hle, hget]
  · intro fuel n rest fragments fieldName there hget e hrest ihg ihr hno
      fuel2 hle
    have hget2 : getFragmentFieldSelections fuel n fragments fieldName ≠
        .error .outOfFuel := by simp [hget]
    have hrest2 : fragSelections fuel rest fragments fieldName ≠
        .error .outOfFuel := by
      intro hx
      apply hno
      simp [fragSelections, hget, hx]
    simp only [fragSelections, ihg hget2 fuel2 hle, hget,
      ihr hrest2 fuel2 hle]
  · intro fuel n rest fragments fieldName there1 hget there2 hrest ihg ihr
      hno fuel2 hle
    have hget2 : getFragmentFieldSelections fuel n fragments fieldName ≠
        .error .outOfFuel := by simp [hget]
    have hrest2 : fragSelections fuel rest fragments fieldName ≠
        .error .outOfFuel := by simp [hrest]
    simp only [fragSelections, ihg hget2 fuel2 hle, hget,
      ihr hrest2 fuel2 hle]
  · intro fuel rest fragments fieldName ih hno fuel2 hle
    have := ih (by
      intro hx
      apply hno
      simp [fragSelections, hx]) fuel2 hle
    simp only [fragSelections, this]

/-- Sequencing of two fallible field-node lists, as the source's
`push(...)` loops combine partial results: first error wins, otherwise
concatenation. -/
def exApp : Except Err (List FieldNode) → Except Err (List FieldNode) →
    Except Err (List FieldNode)
  | .error e, _ => .error e
  | .ok _, .error e => .error e
  | .ok a, .ok b => .ok (a ++ b)

theorem exApp_assoc (x y z : Except Err (List FieldNode)) :
    exApp (exApp x y) z = exApp x (exApp y z) := by
  cases x <;> cases y <;> cases z <;> simp [exApp]

theorem fragmentCandidates_cons (fuel : Nat) (fragments : FragmentMap)
    (fieldName : String) (n : String) (rest : List String) :
    fragmentCandidates fuel fragments fieldName (n :: rest) =
      exApp (getFragmentFieldSelections fuel n fragments fieldName)
        (fragmentCandidates fuel fragments fieldName rest) := by
  cases h1 : getFragmentFieldSelections fuel n fragments fieldName with
  | error e => simp [fragmentCandidates, h1, exApp]
  | ok here =>
    cases h2 : fragmentCandidates fuel fragments fieldName rest with
    | error e => simp [fragmentCandidates, h1, h2, exApp]
    | ok there => simp [fragmentCandidates, h1, h2, exApp]

theorem fragmentCandidates_append (fuel : Nat) (fragments : FragmentMap)
    (fieldName : String) (u v : List String) :
    fragmentCandidates fuel fragments fieldName (u ++ v) =
      exApp (fragmentCandidates fuel fragments fieldName u)
        (fragmentCandidates fuel fragments fieldName v) := by
  induction u with
  | nil =>
    cases h : fragmentCandidates fuel fragments fieldName v <;>
      simp [fragmentCandidates, exApp, h]
  | cons n rest ih =>
    rw [List.cons_append, fragmentCandidates_cons, fragmentCandidates_cons,
      ih, exApp_assoc]

theorem fragSelections_cons_field (fuel : Nat) (n : String)
    (c : Option (List Selection)) (rest : List Selection)
    (fragments : FragmentMap) (fieldName : String) :
    fragSelections fuel (Selection.field n c :: rest) fragments fieldName =
      exApp (.ok (if n = fieldName then [(n, c)] else []))
        (fragSelections fuel rest fragments fieldName) := by
  cases h : fragSelections fuel rest fragments fieldName with
  | error e => simp [fragSelections, h, exApp]
  | ok there => simp [fragSelections, h, exApp]

theorem fragSelections_cons_spread (fuel : Nat) (n : String)
    (rest : List Selection) (fragments : FragmentMap) (fieldName : String) :
    fragSelections fuel (Selection.fragmentSpread n :: rest) fragments
        fieldName =
      exApp (getFragmentFieldSelections fuel n fragments fieldName)
        (fragSelections fuel rest fragments fieldName) := by
  cases h1 : getFragmentFieldSelections fuel n fragments fieldName with
  | error e => simp [fragSelections, h1, exApp]
  | ok here =>
    cases h2 : fragSelections fuel rest fragments fieldName with
    | error e => simp [fragSelections, h1, h2, exApp]
    | ok there => simp [fragSelections, h1, h2, exApp]

theorem fragSelections_append (fuel : Nat) (u v : List Selection)
    (fragments : FragmentMap) (fieldName : String) :
    fragSelections fuel (u ++ v) fragments fieldName =
      exApp (fragSelections fuel u fragments fieldName)
        (fragSelections fuel v fragments fieldName) := by
  induction u with
  | nil =>
    cases h : fragSelections fuel v fragments fieldName <;>
      simp [fragSelections, exApp, h]
  | cons s rest ih =>
    cases s with
    | field n c =>
      rw [List.cons_append, fragSelections_cons_field,
        fragSelections_cons_field, ih, exApp_assoc]
    | fragmentSpread n =>
      rw [List.cons_append, fragSelections_cons_spread,
        fragSelections_cons_spread, ih, exApp_assoc]
    | other => simp only [List.cons_append, fragSelections, ih]

theorem directSelections_append (fieldName : String)
    (u v : List Selection) :
    directSelections fieldName (u ++ v) =
      directSelections fieldName u ++ directSelections fieldName v := by
  induction u with
  | nil => simp [directSelections]
  | cons s rest ih =>
    cases s with
    | field n c =>
      by_cases h : n = fieldName <;> simp [directSelections, h, ih]
    | fragmentSpread n => simp [directSelections, ih]
    | other => simp [directSelections, ih]

theorem spreadNames_append (u v : List Selection) :
    spreadNames (u ++ v) = spreadNames u ++ spreadNames v := by
  induction u with
  | nil => simp [spreadNames]
  | cons s rest ih => cases s <;> simp [spreadNames, ih]

theorem collectCandidates_exApp (fuel : Nat) (fragments : FragmentMap)
    (fieldName : String) (sels : List Selection) :
    collectCandidates fuel fragments fieldName sels =
      exApp (.ok (directSelections fieldName sels))
        (fragmentCandidates fuel fragments fieldName (spreadNames sels)) := by
  cases h : fragmentCandidates fuel fragments fieldName (spreadNames sels) with
  | error e => simp [collectCandidates, h, exApp]
  | ok frag => simp [collectCandidates, h, exApp]

/-- Two candidate computations that fail identically or succeed with
permuted candidate lists. -/
def ExceptPermRel (x y : Except Err (List FieldNode)) : Prop :=
  (∀ e, x = .error e ↔ y = .error e) ∧
  ∀ l1 l2, x = .ok l1 → y = .ok l2 → l1.Perm l2

theorem ExceptPermRel.refl (x : Except Err (List FieldNode)) :
    ExceptPermRel x x := by
  refine ⟨fun e => Iff.rfl, ?_⟩
  intro l1 l2 h1 h2
  rw [h1] at h2
  cases h2
  exact List.Perm.refl l1

theorem ExceptPermRel.of_perm {l1 l2 : List FieldNode} (h : l1.Perm l2) :
    ExceptPermRel (.ok l1) (.ok l2) := by
  refine ⟨fun e => by simp, ?_⟩
  intro a b h1 h2
  cases h1
  cases h2
  exact h

theorem ExceptPermRel.symm {x y : Except Err (List FieldNode)}
    (h : ExceptPermRel x y) : ExceptPermRel y x := by
  refine ⟨fun e => (h.1 e).symm, ?_⟩
  intro l1 l2 h1 h2
  exact (h.2 l2 l1 h2 h1).symm

theorem ExceptPermRel.trans {x y z : Except Err (List FieldNode)}
    (hxy : ExceptPermRel x y) (hyz : ExceptPermRel y z) :
    ExceptPermRel x z := by
  refine ⟨fun e => (hxy.1 e).trans (hyz.1 e), ?_⟩
  intro l1 l3 h1 h3
  cases hy : y with
  | error e =>
    have := (hxy.1 e).mpr hy
    rw [this] at h1
    cases h1
  | ok l2 =>
    exact (hxy.2 l1 l2 h1 hy).trans (hyz.2 l2 l3 hy h3)

theorem ExceptPermRel.exApp_congr {x1 x2 y1 y2 : Except Err (List FieldNode)}
    (hx : ExceptPermRel x1 x2) (hy : ExceptPermRel y1 y2) :
    ExceptPermRel (exApp x1 y1) (exApp x2 y2) := by
  cases hx1 : x1 with
  | error e =>
    have hx2 : x2 = .error e := (hx.1 e).mp hx1
    rw [hx2]
    exact ExceptPermRel.refl _
  | ok a1 =>
    cases hx2 : x2 with
    | error e =>
      have : x1 = .error e := (hx.1 e).mpr hx2
      rw [this] at hx1
      cases hx1
    | ok a2 =>
      have ha : a1.Perm a2 := hx.2 a1 a2 hx1 hx2
      cases hy1 : y1 with
      | error e =>
        have hy2 : y2 = .error e := (hy.1 e).mp hy1
        rw [hy2]
        simp only [exApp]
        exact ExceptPermRel.refl _
      | ok b1 =>
        cases hy2 : y2 with
        | error e =>
          have : y1 = .error e := (hy.1 e).mpr hy2
          rw [this] at hy1
          cases hy1
        | ok b2 =>
          have hb : b1.Perm b2 := hy.2 b1 b2 hy1 hy2
          simp only [exApp]
          exact ExceptPermRel.of_perm (ha.append hb)

/-- A pure (`.ok`) summand commutes over `exApp` up to permutation: error
order is unaffected because an `.ok` leaf produces no error. -/
theorem ExceptPermRel.exApp_ok_swap (d : List FieldNode)
    (x y : Except Err (List FieldNode)) :
    ExceptPermRel (exApp x (exApp (.ok d) y)) (exApp (.ok d) (exApp x y)) := by
  cases x with
  | error e => simp only [exApp]; exact ExceptPermRel.refl _
  | ok a =>
    cases y with
    | error e => simp only [exApp]; exact ExceptPermRel.refl _
    | ok b =>
      simp only [exApp]
      refine ExceptPermRel.of_perm ?_
      have h2 : ((a ++ d) ++ b).Perm ((d ++ a) ++ b) :=
        List.perm_append_comm.append_right b
      rw [← List.append_assoc, ← List.append_assoc]
      exact h2

theorem exApp_ok_ok (a b : List FieldNode) :
    exApp (.ok a) (.ok b) = .ok (a ++ b) := rfl

theorem exApp_ok_merge (a b : List FieldNode)
    (y : Except Err (List FieldNode)) :
    exApp (.ok a) (exApp (.ok b) y) = exApp (.ok (a ++ b)) y := by
  cases y <;> simp [exApp]

/-- The interleaved fragment walk is, up to reordering (and with identical
errors), the separated direct-fields-then-spreads collection of the
resolver. -/
theorem fragSelections_permrel_collect (fuel : Nat) (fragments : FragmentMap)
    (fieldName : String) :
    ∀ sels : List Selection,
      ExceptPermRel (fragSelections fuel sels fragments fieldName)
        (collectCandidates fuel fragments fieldName sels) := by
  intro sels
  induction sels with
  | nil =>
    have h1 : fragSelections fuel [] fragments fieldName = .ok [] := by
      simp [fragSelections]
    have h2 : collectCandidates fuel fragments fieldName [] = .ok [] := by
      simp [collectCandidates, spreadNames, fragmentCandidates,
        directSelections]
    rw [h1, h2]
    exact ExceptPermRel.refl _
  | cons s rest ih =>
    cases s with
    | field n c =>
      rw [fragSelections_cons_field, collectCandidates_exApp]
      have hdir : directSelections fieldName (Selection.field n c :: rest) =
          (if n = fieldName then [(n, c)] else []) ++
            directSelections fieldName rest := by
        by_cases h : n = fieldName <;> simp [directSelections, h]
      have hspread : spreadNames (Selection.field n c :: rest) =
          spreadNames rest := by simp [spreadNames]
      rw [hdir, hspread, ← exApp_ok_merge]
      refine ExceptPermRel.exApp_congr (ExceptPermRel.refl _) ?_
      rw [← collectCandidates_exApp]
      exact ih
    | fragmentSpread n =>
      rw [fragSelections_cons_spread, collectCandidates_exApp]
      have hdir : directSelections fieldName
          (Selection.fragmentSpread n :: rest) =
          directSelections fieldName rest := by simp [directSelections]
      have hspread : spreadNames (Selection.fragmentSpread n :: rest) =
          n :: spreadNames rest := by simp [spreadNames]
      rw [hdir, hspread, fragmentCandidates_cons]
      refine ExceptPermRel.trans
        (ExceptPermRel.exApp_congr (ExceptPermRel.refl _)
          (ExceptPermRel.trans ih ?_)) (ExceptPermRel.exApp_ok_swap _ _ _)
      rw [collectCandidates_exApp]
      exact ExceptPermRel.refl _
    | other =>
      have h1 : fragSelections fuel (Selection.other :: rest) fragments
          fieldName = fragSelections fuel rest fragments fieldName := by
        simp [fragSelections]
      have h2 : collectCandidates fuel fragments fieldName
          (Selection.other :: rest) =
          collectCandidates fuel fragments fieldName rest := by
        simp [collectCandidates, spreadNames, directSelections]
      rw [h1, h2]
      exact ih

/-- With pointwise-equal fragment resolutions, spread collection agrees. -/
theorem fragmentCandidates_stable (fuelA fuelB : Nat)
    (fragments : FragmentMap) (fieldName : String)
    (h : ∀ n, getFragmentFieldSelections fuelA n fragments fieldName =
      getFragmentFieldSelections fuelB n fragments fieldName) :
    ∀ names : List String,
      fragmentCandidates fuelA fragments fieldName names =
        fragmentCandidates fuelB fragments fieldName names := by
  intro names
  induction names with
  | nil => simp [fragmentCandidates]
  | cons n rest ih =>
    rw [fragmentCandidates_cons, fragmentCandidates_cons, h n, ih]

/-- Replacing an inline block of selections by a spread of a fragment that
contains exactly those selections permutes the resolver's candidate list and
preserves its errors, once the fragment resolver has enough fuel to be
stable. -/
theorem collectCandidates_inline_spread (k : Nat) (fragments : FragmentMap)
    (fieldName g : String) (fields xs ys : List Selection)
    (hg : fragments.lookup g = some fields)
    (hstable : ∀ n, getFragmentFieldSelections (k + 1) n fragments fieldName =
      getFragmentFieldSelections k n fragments fieldName) :
    ExceptPermRel
      (collectCandidates (k + 1) fragments fieldName (xs ++ fields ++ ys))
      (collectCandidates (k + 1) fragments fieldName
        (xs ++ Selection.fragmentSpread g :: ys)) := by
  have hgf : getFragmentFieldSelections (k + 1) g fragments fieldName =
      fragSelections k fields fragments fieldName := by
    simp [getFragmentFieldSelections, hg]
  have hfcstab : fragmentCandidates k fragments fieldName
      (spreadNames fields) =
      fragmentCandidates (k + 1) fragments fieldName (spreadNames fields) :=
    (fragmentCandidates_stable (k + 1) k fragments fieldName hstable
      (spreadNames fields)).symm
  have hfrag : ExceptPermRel (fragSelections k fields fragments fieldName)
      (exApp (.ok (directSelections fieldName fields))
        (fragmentCandidates (k + 1) fragments fieldName
          (spreadNames fields))) := by
    have h1 := fragSelections_permrel_collect k fragments fieldName fields
    rw [collectCandidates_exApp, hfcstab] at h1
    exact h1
  have hL : collectCandidates (k + 1) fragments fieldName
      (xs ++ fields ++ ys) =
      exApp (.ok (directSelections fieldName xs ++
          directSelections fieldName fields ++ directSelections fieldName ys))
        (exApp (fragmentCandidates (k + 1) fragments fieldName
            (spreadNames xs))
          (exApp (fragmentCandidates (k + 1) fragments fieldName
              (spreadNames fields))
            (fragmentCandidates (k + 1) fragments fieldName
              (spreadNames ys)))) := by
    rw [collectCandidates_exApp, directSelections_append,
      directSelections_append, spreadNames_append, spreadNames_append,
      fragmentCandidates_append, fragmentCandidates_append, exApp_assoc]
  have hR : collectCandidates (k + 1) fragments fieldName
      (xs ++ Selection.fragmentSpread g :: ys) =
      exApp (.ok (directSelections fieldName xs ++
          directSelections fieldName ys))
        (exApp (fragmentCandidates (k + 1) fragments fieldName
            (spreadNames xs))
          (exApp (fragSelections k fields fragments fieldName)
            (fragmentCandidates (k + 1) fragments fieldName
              (spreadNames ys)))) := by
    rw [collectCandidates_exApp, directSelections_append, spreadNames_append,
      fragmentCandidates_append]
    simp only [directSelections, spreadNames]
    rw [fragmentCandidates_cons, hgf]
  rw [hL, hR]
  refine ExceptPermRel.symm ?_
  refine ExceptPermRel.trans
    (ExceptPermRel.exApp_congr (ExceptPermRel.refl _)
      (ExceptPermRel.exApp_congr (ExceptPermRel.refl _)
        (ExceptPermRel.exApp_congr hfrag (ExceptPermRel.refl _)))) ?_
  rw [exApp_assoc]
  refine ExceptPermRel.trans
    (ExceptPermRel.exApp_congr (ExceptPermRel.refl _)
      (ExceptPermRel.exApp_ok_swap (directSelections fieldName fields) _ _))
    ?_
  rw [exApp_ok_merge]
  refine ExceptPermRel.exApp_congr (ExceptPermRel.of_perm ?_)
    (ExceptPermRel.refl _)
  rw [List.append_assoc, List.append_assoc]
  exact List.Perm.append_left (directSelections fieldName xs)
    List.perm_append_comm

/-- A dead branch list is one whose members are all dead. -/
theorem deadEntry_branches_true_iff (rs : List ExecutionResult) :
    deadEntry (RVal.branches rs) = true ↔
      ∀ r ∈ rs, hasOnlyDeepEmptyArrays r = true := by
  have h := deadOnes_length_iff rs
  constructor
  · intro htrue
    exact h.mp (by simpa [deadEntry] using htrue)
  · intro hall
    simp [deadEntry, h.mpr hall]

/-- The domain of a successful graph pairing satisfies the pointwise
success condition. -/
theorem forall2_graph_mem {α β : Type} {f : α → Except Err β} :
    ∀ {cands : List α} {rs : List β},
      List.Forall₂ (fun c r => f c = .ok r) cands rs →
      ∀ c ∈ cands, ∃ r, f c = .ok r := by
  intro cands rs h
  induction h with
  | nil => intro c hc; cases hc
  | cons hcr htail ih =>
    intro c' hc'
    rcases List.mem_cons.mp hc' with h1 | h1
    · subst h1
      exact ⟨_, hcr⟩
    · exact ih c' h1

/-- Transfer a universal over results to a universal over candidates along
the graph of a partial function. -/
theorem forall2_forall_transfer {α β : Type} {f : α → Except Err β}
    {p : β → Prop} :
    ∀ {cands : List α} {rs : List β},
      List.Forall₂ (fun c r => f c = .ok r) cands rs →
      ((∀ r ∈ rs, p r) ↔ ∀ c ∈ cands, ∀ r, f c = .ok r → p r) := by
  intro cands rs h
  induction h with
  | nil => simp
  | cons hcr htail ih =>
    rename_i c r cands' rs'
    constructor
    · intro hall c' hc' r' hok
      rcases List.mem_cons.mp hc' with h1 | h1
      · subst h1
        rw [hcr] at hok
        cases hok
        exact hall r (List.mem_cons_self _ _)
      · exact (ih.mp fun x hx => hall x (List.mem_cons_of_mem _ hx)) c' h1
          r' hok
    · intro hall r' hr'
      rcases List.mem_cons.mp hr' with h1 | h1
      · subst h1
        exact hall c (List.mem_cons_self _ _) r' hcr
      · exact ih.mpr
          (fun c' hc' r'' hok => hall c' (List.mem_cons_of_mem _ hc') r'' hok)
          r' h1

/-- `execBranches` succeeds when every candidate's resolution succeeds. -/
theorem execBranches_ok_of_all (fuel : Nat) (fragments : FragmentMap)
    (cs : List Pattern) :
    ∀ cands : List FieldNode,
      (∀ c ∈ cands, ∃ r,
        execPattern fuel fragments cs (.field c) = .ok r) →
      ∃ rs, execBranches fuel fragments cs cands = .ok rs := by
  intro cands
  induction cands with
  | nil => intro _; exact ⟨[], by simp [execBranches]⟩
  | cons c rest ih =>
    intro h
    obtain ⟨r, hr⟩ := h c (List.mem_cons_self _ _)
    obtain ⟨rs, hrs⟩ := ih (fun m hm => h m (List.mem_cons_of_mem _ hm))
    exact ⟨r :: rs, by simp [execBranches, hr, hrs]⟩

/-- `execBranches` succeeds exactly when every candidate's resolution
succeeds. -/
theorem execBranches_ok_iff (fuel : Nat) (fragments : FragmentMap)
    (cs : List Pattern) (cands : List FieldNode) :
    (∃ rs, execBranches fuel fragments cs cands = .ok rs) ↔
      ∀ c ∈ cands, ∃ r, execPattern fuel fragments cs (.field c) = .ok r := by
  constructor
  · rintro ⟨rs, hrs⟩
    exact forall2_graph_mem (execBranches_forall2 fuel fragments cs cands rs hrs)
  · exact execBranches_ok_of_all fuel fragments cs cands

/-- Equivalence of two fallible per-field results: same success behaviour and
equal deadness on success. -/
def EntryEquiv (x y : Except Err (String × RVal)) : Prop :=
  ((∃ v, x = .ok v) ↔ (∃ v, y = .ok v)) ∧
  ∀ v1 v2, x = .ok v1 → y = .ok v2 → deadEntry v1.2 = deadEntry v2.2

/-- Equivalence of two fallible execution results: same success behaviour
and equal deadness on success. -/
def MatchEquiv (x y : Except Err ExecutionResult) : Prop :=
  ((∃ r, x = .ok r) ↔ (∃ r, y = .ok r)) ∧
  ∀ r1 r2, x = .ok r1 → y = .ok r2 →
    hasOnlyDeepEmptyArrays r1 = hasOnlyDeepEmptyArrays r2

/-- Permuting a field's candidate list preserves the field's entry: same
errors-or-success, and equal deadness. -/
theorem execField_entry_equiv (fuel : Nat) (fragments : FragmentMap)
    (root1 root2 : RootValue) (p : Pattern)
    (hrel : ExceptPermRel (candidatesOf fuel fragments p.1 root1)
      (candidatesOf fuel fragments p.1 root2)) :
    EntryEquiv (execField fuel fragments p root1)
      (execField fuel fragments p root2) := by
  obtain ⟨name, children⟩ := p
  cases hc1 : candidatesOf fuel fragments name root1 with
  | error e =>
    have hc2 : candidatesOf fuel fragments name root2 = .error e :=
      (hrel.1 e).mp hc1
    have h1 : execField fuel fragments (.mk name children) root1 =
        .error e := by
      simp [execField, resolveField_eq_candidatesOf, hc1, Except.map]
    have h2 : execField fuel fragments (.mk name children) root2 =
        .error e := by
      simp [execField, resolveField_eq_candidatesOf, hc2, Except.map]
    constructor
    · simp [h1, h2]
    · intro v1 v2 hv1 _
      rw [h1] at hv1
      cases hv1
  | ok cands1 =>
    cases hc2 : candidatesOf fuel fragments name root2 with
    | error e =>
      have : candidatesOf fuel fragments name root1 = .error e :=
        (hrel.1 e).mpr hc2
      rw [this] at hc1
      cases hc1
    | ok cands2 =>
      have hperm : cands1.Perm cands2 := hrel.2 cands1 cands2 hc1 hc2
      cases children with
      | none =>
        have hlen : cands1.isEmpty = cands2.isEmpty := by
          cases cands1 with
          | nil =>
            have h0 : cands2 = [] := List.perm_nil.mp hperm.symm
            subst h0
            rfl
          | cons a l =>
            cases cands2 with
            | nil => exact absurd (List.perm_nil.mp hperm) (by simp)
            | cons b m => rfl
        have h1 : execField fuel fragments (.mk name none) root1 =
            .ok (name, if cands1.isEmpty then RVal.branches []
              else RVal.leafSat) :=
          (leafField_existence_suffices fuel fragments name root1 cands1
            hc1).1
        have h2 : execField fuel fragments (.mk name none) root2 =
            .ok (name, if cands2.isEmpty then RVal.branches []
              else RVal.leafSat) :=
          (leafField_existence_suffices fuel fragments name root2 cands2
            hc2).1
        constructor
        · simp [h1, h2]
        · intro v1 v2 hv1 hv2
          rw [h1] at hv1
          rw [h2] at hv2
          cases hv1
          cases hv2
          rw [hlen]
      | some cs =>
        have hok : (∃ rs, execBranches fuel fragments cs cands1 = .ok rs) ↔
            ∃ rs, execBranches fuel fragments cs cands2 = .ok rs := by
          rw [execBranches_ok_iff, execBranches_ok_iff]
          constructor
          · intro h c hc
            exact h c (hperm.mem_iff.mpr hc)
          · intro h c hc
            exact h c (hperm.mem_iff.mp hc)
        have hexec1 : ∀ rs, execBranches fuel fragments cs cands1 = .ok rs →
            execField fuel fragments (.mk name (some cs)) root1 =
              .ok (name, RVal.branches rs) := by
          intro rs hrs
          simp [execField, resolveField_eq_candidatesOf, hc1, Except.map,
            hrs]
        have hexec2 : ∀ rs, execBranches fuel fragments cs cands2 = .ok rs →
            execField fuel fragments (.mk name (some cs)) root2 =
              .ok (name, RVal.branches rs) := by
          intro rs hrs
          simp [execField, resolveField_eq_candidatesOf, hc2, Except.map,
            hrs]
        have herr1 : ∀ e, execBranches fuel fragments cs cands1 = .error e →
            execField fuel fragments (.mk name (some cs)) root1 =
              .error e := by
          intro e he
          simp [execField, resolveField_eq_candidatesOf, hc1, Except.map, he]
        have herr2 : ∀ e, execBranches fuel fragments cs cands2 = .error e →
            execField fuel fragments (.mk name (some cs)) root2 =
              .error e := by
          intro e he
          simp [execField, resolveField_eq_candidatesOf, hc2, Except.map, he]
        constructor
        · constructor
          · rintro ⟨v1, hv1⟩
            cases hb2 : execBranches fuel fragments cs cands2 with
            | error e =>
              cases hb1 : execBranches fuel fragments cs cands1 with
              | error e1 =>
                rw [herr1 e1 hb1] at hv1
                cases hv1
              | ok rs1 =>
                obtain ⟨rs2, hrs2⟩ := hok.mp ⟨rs1, hb1⟩
                rw [hrs2] at hb2
                cases hb2
            | ok rs2 => exact ⟨_, hexec2 rs2 hb2⟩
          · rintro ⟨v2, hv2⟩
            cases hb1 : execBranches fuel fragments cs cands1 with
            | error e =>
              cases hb2 : execBranches fuel fragments cs cands2 with
              | error e2 =>
                rw [herr2 e2 hb2] at hv2
                cases hv2
              | ok rs2 =>
                obtain ⟨rs1, hrs1⟩ := hok.mpr ⟨rs2, hb2⟩
                rw [hrs1] at hb1
                cases hb1
            | ok rs1 => exact ⟨_, hexec1 rs1 hb1⟩
        · intro v1 v2 hv1 hv2
          cases hb1 : execBranches fuel fragments cs cands1 with
          | error e =>
            rw [herr1 e hb1] at hv1
            cases hv1
          | ok rs1 =>
            cases hb2 : execBranches fuel fragments cs cands2 with
            | error e =>
              rw [herr2 e hb2] at hv2
              cases hv2
            | ok rs2 =>
              rw [hexec1 rs1 hb1] at hv1
              rw [hexec2 rs2 hb2] at hv2
              cases hv1
              cases hv2
              have hf1 := execBranches_forall2 fuel fragments cs cands1 rs1
                hb1
              have hf2 := execBranches_forall2 fuel fragments cs cands2 rs2
                hb2
              simp only
              cases hd1 : deadEntry (RVal.branches rs1) with
              | true =>
                have hall1 := (deadEntry_branches_true_iff rs1).mp hd1
                have hall2 : ∀ r ∈ rs2, hasOnlyDeepEmptyArrays r = true := by
                  rw [forall2_forall_transfer hf2]
                  intro c hc r hr
                  exact (forall2_forall_transfer hf1).mp hall1 c
                    (hperm.mem_iff.mpr hc) r hr
                rw [(deadEntry_branches_true_iff rs2).mpr hall2]
              | false =>
                cases hd2 : deadEntry (RVal.branches rs2) with
                | false => rfl
                | true =>
                  have hall2 := (deadEntry_branches_true_iff rs2).mp hd2
                  have hall1 : ∀ r ∈ rs1,
                      hasOnlyDeepEmptyArrays r = true := by
                    rw [forall2_forall_transfer hf1]
                    intro c hc r hr
                    exact (forall2_forall_transfer hf2).mp hall2 c
                      (hperm.mem_iff.mp hc) r hr
                  rw [(deadEntry_branches_true_iff rs1).mpr hall1] at hd1
                  cases hd1

/-- Pointwise candidate permutation between two root values yields equivalent
driver runs: same success behaviour and the same deadness verdict. -/
theorem execPattern_match_equiv (fuel : Nat) (fragments : FragmentMap)
    (root1 root2 : RootValue)
    (hrel : ∀ fieldName,
      ExceptPermRel (candidatesOf fuel fragments fieldName root1)
        (candidatesOf fuel fragments fieldName root2)) :
    ∀ ps : List Pattern,
      MatchEquiv (execPattern fuel fragments ps root1)
        (execPattern fuel fragments ps root2) := by
  intro ps
  induction ps with
  | nil =>
    constructor
    · simp [execPattern]
    · intro r1 r2 h1 h2
      simp only [execPattern] at h1 h2
      cases h1
      cases h2
      rfl
  | cons p rest ih =>
    have he := execField_entry_equiv fuel fragments root1 root2 p (hrel p.1)
    cases hf1 : execField fuel fragments p root1 with
    | error e =>
      have hno2 : ∀ v, execField fuel fragments p root2 ≠ .ok v := by
        intro v hv
        obtain ⟨v1, hv1⟩ := he.1.mpr ⟨v, hv⟩
        rw [hf1] at hv1
        cases hv1
      cases hf2 : execField fuel fragments p root2 with
      | ok v => exact absurd hf2 (hno2 v)
      | error e2 =>
        constructor
        · constructor
          · rintro ⟨r, hr⟩
            simp only [execPattern, hf1] at hr
            cases hr
          · rintro ⟨r, hr⟩
            simp only [execPattern, hf2] at hr
            cases hr
        · intro r1 r2 h1 h2
          simp only [execPattern, hf1] at h1
          cases h1
    | ok v1 =>
      obtain ⟨v2, hf2⟩ := he.1.mp ⟨v1, hf1⟩
      have hdead := he.2 v1 v2 hf1 hf2
      cases hr1 : execPattern fuel fragments rest root1 with
      | error e =>
        have hno2 : ∀ r, execPattern fuel fragments rest root2 ≠ .ok r := by
          intro r hr
          obtain ⟨r1, hr1f⟩ := ih.1.mpr ⟨r, hr⟩
          rw [hr1] at hr1f
          cases hr1f
        cases hr2 : execPattern fuel fragments rest root2 with
        | ok r => exact absurd hr2 (hno2 r)
        | error e2 =>
          constructor
          · constructor
            · rintro ⟨r, hr⟩
              simp only [execPattern, hf1, hr1] at hr
              cases hr
            · rintro ⟨r, hr⟩
              simp only [execPattern, hf2, hr2] at hr
              cases hr
          · intro r1 r2 h1 h2
            simp only [execPattern, hf1, hr1] at h1
            cases h1
      | ok r1 =>
        obtain ⟨r2, hr2⟩ := ih.1.mp ⟨r1, hr1⟩
        have hdrest := ih.2 r1 r2 hr1 hr2
        have hL : execPattern fuel fragments (p :: rest) root1 =
            .ok (v1 :: r1) := by
          simp [execPattern, hf1, hr1]
        have hR : execPattern fuel fragments (p :: rest) root2 =
            .ok (v2 :: r2) := by
          simp [execPattern, hf2, hr2]
        constructor
        · simp [hL, hR]
        · intro a1 a2 ha1 ha2
          rw [hL] at ha1
          rw [hR] at ha2
          cases ha1
          cases ha2
          obtain ⟨k1, w1⟩ := v1
          obtain ⟨k2, w2⟩ := v2
          simp only [hasOnlyDeepEmptyArrays]
          simp only at hdead
          rw [hdead, hdrest]

/-- C7: declaring a block of selections directly at a level of the target is
equivalent to declaring the same selections inside a fragment referenced by a
spread at that level: the driver's runs at any such node (field node or
operation root) succeed together and agree on deadness, and the overall
document-level match boolean is unchanged.  The acyclicity bound keeps the
fuel model faithful to the source's unbounded recursion. -/
theorem fragmentInlining_law :
    ∀ (k B : Nat) (fragments : FragmentMap) (g : String)
      (fields xs ys : List Selection),
      AcyclicBound fragments B → B < k →
      fragments.lookup g = some fields →
      (∀ (ps : List Pattern) (nodeName : String),
        MatchEquiv
          (execPattern (k + 1) fragments ps
            (.field (nodeName, some (xs ++ fields ++ ys))))
          (execPattern (k + 1) fragments ps
            (.field (nodeName,
              some (xs ++ Selection.fragmentSpread g :: ys))))) ∧
      (∀ ps : List Pattern,
        MatchEquiv
          (execPattern (k + 1) fragments ps (.opDef (xs ++ fields ++ ys)))
          (execPattern (k + 1) fragments ps
            (.opDef (xs ++ Selection.fragmentSpread g :: ys)))) ∧
      (∀ (matcher : List Pattern) (defsRest : List Definition) (b : Bool),
        buildFrags defsRest [] = fragments →
        (doesQueryMatch (k + 1) matcher
            (.document (.operation (xs ++ fields ++ ys) :: defsRest)) =
            .ok b ↔
          doesQueryMatch (k + 1) matcher
            (.document (.operation (xs ++ Selection.fragmentSpread g :: ys) ::
              defsRest)) = .ok b)) := by
  intro k B fragments g fields xs ys hA hB hg
  obtain ⟨rank, hbound, hrank⟩ := hA
  have hstable : ∀ fieldName n,
      getFragmentFieldSelections (k + 1) n fragments fieldName =
        getFragmentFieldSelections k n fragments fieldName := by
    intro fieldName n
    refine getFragmentFieldSelections_fuel_stable k n fragments fieldName
      ?_ (k + 1) (Nat.le_succ k)
    exact getFragmentFieldSelections_no_outOfFuel fragments fieldName rank
      hrank k n (lt_of_le_of_lt (hbound n) hB)
  have hcoll : ∀ fieldName,
      ExceptPermRel
        (collectCandidates (k + 1) fragments fieldName
          (xs ++ fields ++ ys))
        (collectCandidates (k + 1) fragments fieldName
          (xs ++ Selection.fragmentSpread g :: ys)) := fun fieldName =>
    collectCandidates_inline_spread k fragments fieldName g fields xs ys hg
      (hstable fieldName)
  have hfieldEq : ∀ (nodeName : String) (ps : List Pattern),
      MatchEquiv
        (execPattern (k + 1) fragments ps
          (.field (nodeName, some (xs ++ fields ++ ys))))
        (execPattern (k + 1) fragments ps
          (.field (nodeName,
            some (xs ++ Selection.fragmentSpread g :: ys)))) := by
    intro nodeName ps
    refine execPattern_match_equiv (k + 1) fragments _ _ ?_ ps
    intro fieldName
    simp only [candidatesOf]
    exact hcoll fieldName
  have hopEq : ∀ ps : List Pattern,
      MatchEquiv
        (execPattern (k + 1) fragments ps (.opDef (xs ++ fields ++ ys)))
        (execPattern (k + 1) fragments ps
          (.opDef (xs ++ Selection.fragmentSpread g :: ys))) := by
    intro ps
    refine execPattern_match_equiv (k + 1) fragments _ _ ?_ ps
    intro fieldName
    simp only [candidatesOf]
    exact hcoll fieldName
  refine ⟨fun ps nodeName => hfieldEq nodeName ps, hopEq, ?_⟩
  intro matcher defsRest b hfr
  have hbf1 : buildFrags
      (Definition.operation (xs ++ fields ++ ys) :: defsRest) [] =
      fragments := by
    simp only [buildFrags]
    exact hfr
  have hbf2 : buildFrags
      (Definition.operation (xs ++ Selection.fragmentSpread g :: ys) ::
        defsRest) [] = fragments := by
    simp only [buildFrags]
    exact hfr
  have me := hopEq matcher
  constructor
  · intro h
    cases hx : execPattern (k + 1) fragments matcher
        (.opDef (xs ++ fields ++ ys)) with
    | error e =>
      rw [show doesQueryMatch (k + 1) matcher
          (.document (.operation (xs ++ fields ++ ys) :: defsRest)) =
          .error e by
        simp only [doesQueryMatch, findFirstOp]
        rw [hbf1, hx]] at h
      cases h
    | ok r1 =>
      rw [show doesQueryMatch (k + 1) matcher
          (.document (.operation (xs ++ fields ++ ys) :: defsRest)) =
          .ok (!hasOnlyDeepEmptyArrays r1) by
        simp only [doesQueryMatch, findFirstOp]
        rw [hbf1, hx]] at h
      cases h
      obtain ⟨r2, hr2⟩ := me.1.mp ⟨r1, hx⟩
      have hd := me.2 r1 r2 hx hr2
      rw [show doesQueryMatch (k + 1) matcher
          (.document (.operation (xs ++ Selection.fragmentSpread g :: ys) ::
            defsRest)) = .ok (!hasOnlyDeepEmptyArrays r2) by
        simp only [doesQueryMatch, findFirstOp]
        rw [hbf2, hr2]]
      rw [hd]
  · intro h
    cases hx : execPattern (k + 1) fragments matcher
        (.opDef (xs ++ Selection.fragmentSpread g :: ys)) with
    | error e =>
      rw [show doesQueryMatch (k + 1) matcher
          (.document (.operation (xs ++ Selection.fragmentSpread g :: ys) ::
            defsRest)) = .error e by
        simp only [doesQueryMatch, findFirstOp]
        rw [hbf2, hx]] at h
      cases h
    | ok r2 =>
      rw [show doesQueryMatch (k + 1) matcher
          (.document (.operation (xs ++ Selection.fragmentSpread g :: ys) ::
            defsRest)) = .ok (!hasOnlyDeepEmptyArrays r2) by
        simp only [doesQueryMatch, findFirstOp]
        rw [hbf2, hx]] at h
      cases h
      obtain ⟨r1, hr1⟩ := me.1.mpr ⟨r2, hx⟩
      have hd := me.2 r1 r2 hr1 hx
      rw [show doesQueryMatch (k + 1) matcher
          (.document (.operation (xs ++ fields ++ ys) :: defsRest)) =
          .ok (!hasOnlyDeepEmptyArrays r1) by
        simp only [doesQueryMatch, findFirstOp]
        rw [hbf1, hr1]]
      rw [hd]

/-- Witness for C7: a leaf field declared directly versus through a fragment
spread gives the same positive match. -/
theorem fragmentInlining_law_witness :
    (doesQueryMatch 2 [Pattern.mk "a" none]
        (.document [.operation [Selection.field "a" none],
                    .fragment "G" [Selection.field "a" none]]) = .ok true ↔
      doesQueryMatch 2 [Pattern.mk "a" none]
        (.document [.operation [Selection.fragmentSpread "G"],
                    .fragment "G" [Selection.field "a" none]]) = .ok true) := by
  have h := (fragmentInlining_law 1 0 [("G", [Selection.field "a" none])] "G"
    [Selection.field "a" none] [] []
    ⟨fun _ => 0, fun _ => Nat.le_refl 0, by
      intro a sels b hlook hmem
      by_cases ha : a = "G"
      · subst ha
        simp [List.lookup] at hlook
        subst hlook
        simp at hmem
      · have e1 : (a == "G") = false := beq_eq_false_iff_ne.mpr ha
        simp [List.lookup, e1] at hlook⟩
    (by omega) (by simp [List.lookup])).2.2 [Pattern.mk "a" none]
    [.fragment "G" [Selection.field "a" none]] true
    (by simp [buildFrags, insertFrag])
  simpa using h
